import Mathlib

/-!
Verification of the management-group policy-definition resource
(`azurerm/resource_arm_management_group_policy_definition.go`).

The Go source is shallowly embedded: pure helpers become Lean functions,
the CRUD operations become functions from the resource state and the
outcomes of the remote API calls to an operation result, and the
eventual-consistency wait becomes a function over a stream of poll
outcomes. External collaborators (the Azure SDK client, the generic
state-change wait helper, the JSON codec) are either taken as parameters
or modelled from the specification, as noted on each definition.
-/

namespace ManagementGroupPolicyDefinition

/-! ## Identifier parsing (`parseManagementGroupPolicyDefinitionNameFromID`) -/

/-- Go `strings.Split` with a one-character separator, over the character
list: the pieces between occurrences of the separator. On the empty input
it yields one empty piece, and each separator character adds one piece, so
the result is one piece longer than the number of separators and is never
the empty list. -/
def splitChars (sep : Char) : List Char → List (List Char)
  | [] => [[]]
  | c :: cs =>
    if c = sep then [] :: splitChars sep cs
    else
      match splitChars sep cs with
      | [] => [[c]]
      | p :: ps => (c :: p) :: ps

/-- Go `strings.Split s sep` for a one-character separator `sep`. -/
def stringsSplit (s : String) (sep : Char) : List String :=
  (splitChars sep s.toList).map (fun cs => String.mk cs)

/-- Go `strings.Join`: the pieces concatenated with the separator between
consecutive pieces. -/
def stringsJoin (sep : String) : List String → String
  | [] => ""
  | [s] => s
  | s :: r :: rest => s ++ sep ++ stringsJoin sep (r :: rest)

theorem splitChars_ne_nil (sep : Char) (cs : List Char) : splitChars sep cs ≠ [] := by
  induction cs with
  | nil => simp [splitChars]
  | cons c cs ih =>
    rw [splitChars]
    split
    · simp
    · split
      · simp
      · simp

theorem stringsSplit_length_pos (s : String) (sep : Char) :
    0 < (stringsSplit s sep).length := by
  rw [stringsSplit, List.length_map]
  exact List.length_pos.mpr (splitChars_ne_nil sep s.toList)

/-- The two error messages `parseManagementGroupPolicyDefinitionNameFromID`
can build with `fmt.Errorf`, kept structured: each constructor carries the
format arguments of the corresponding call. -/
inductive ParseIdError where
  /-- "Azure Management Group Policy Definition Id is empty or not formatted
  correctly: %s" (the `len(components) == 0` branch). -/
  | emptyOrMalformed (id : String)
  /-- "Azure Management Group Policy Definition Id should have %d segments,
  got %d: '%s'" — the expected count 8 is a literal in the format string,
  the actual count is `len(components)-1`. -/
  | wrongSegmentCount (expected got : Nat) (id : String)
  deriving DecidableEq, Repr

/-- The rendered error string of each `fmt.Errorf` call (the `\x27` escapes
are the single quotes around the final `%s` in the Go format string). -/
def ParseIdError.message : ParseIdError → String
  | .emptyOrMalformed id =>
      "Azure Management Group Policy Definition Id is empty or not formatted correctly: " ++ id
  | .wrongSegmentCount expected got id =>
      "Azure Management Group Policy Definition Id should have " ++ toString expected ++
        " segments, got " ++ toString got ++ ": \x27" ++ id ++ "\x27"

/-- `managementGroupPolicyResourceID` from the source. -/
structure managementGroupPolicyResourceID where
  ManagementGroupID : String
  Name : String
  deriving DecidableEq, Repr

/-- `parseManagementGroupPolicyDefinitionNameFromID`: split the id on "/",
require exactly 9 components, and build the resource id from components
0-4 joined by "/" (`strings.Join(components[0:5], "/")`) and the last
component (`components[len(components)-1]`, here with default "" for the
impossible empty case). -/
def parseManagementGroupPolicyDefinitionNameFromID (id : String) :
    Except ParseIdError managementGroupPolicyResourceID :=
  let components := stringsSplit id '/'
  if components.length = 0 then
    .error (.emptyOrMalformed id)
  else if components.length ≠ 9 then
    .error (.wrongSegmentCount 8 (components.length - 1) id)
  else
    .ok { ManagementGroupID := stringsJoin "/" (components.take 5)
          Name := components.getLastD "" }

/-- C3: if the input does not split on "/" into exactly 9 components, the
parse fails with the segment-count error, whose message reports the expected
count 8 and the actual count `len(components)-1`. -/
theorem parse_wrong_segment_count_fails (s : String)
    (h : (stringsSplit s '/').length ≠ 9) :
    parseManagementGroupPolicyDefinitionNameFromID s =
      .error (.wrongSegmentCount 8 ((stringsSplit s '/').length - 1) s) ∧
    ParseIdError.message (.wrongSegmentCount 8 ((stringsSplit s '/').length - 1) s) =
      "Azure Management Group Policy Definition Id should have " ++ toString 8 ++
        " segments, got " ++ toString ((stringsSplit s '/').length - 1) ++
        ": \x27" ++ s ++ "\x27" := by
  have h0 : (stringsSplit s '/').length ≠ 0 :=
    Nat.pos_iff_ne_zero.mp (stringsSplit_length_pos s '/')
  constructor
  · rw [parseManagementGroupPolicyDefinitionNameFromID]
    simp [h0, h]
  · rfl

/-- C3 witness: "a/b" splits into 2 components, so parsing reports
expected 8, got 1. -/
theorem parse_wrong_segment_count_fails_witness :
    (stringsSplit "a/b" '/').length ≠ 9 ∧
    parseManagementGroupPolicyDefinitionNameFromID "a/b" =
      .error (.wrongSegmentCount 8 1 "a/b") :=
  ⟨by decide, ((parse_wrong_segment_count_fails "a/b" (by decide)).1).trans rfl⟩

/-- C4: if the input splits on "/" into exactly 9 components, the parse
succeeds, with ManagementGroupID the first 5 components joined by "/" and
Name the last component. -/
theorem parse_nine_segments_succeeds (s : String)
    (h : (stringsSplit s '/').length = 9) :
    parseManagementGroupPolicyDefinitionNameFromID s =
      .ok { ManagementGroupID := stringsJoin "/" ((stringsSplit s '/').take 5)
            Name := (stringsSplit s '/').getLastD "" } := by
  rw [parseManagementGroupPolicyDefinitionNameFromID]
  simp [h]

/-- C4 witness: the literal id from the spec parses to the management-group
scope id and the policy name. -/
theorem parse_nine_segments_succeeds_witness :
    parseManagementGroupPolicyDefinitionNameFromID
      "/providers/Microsoft.Management/managementGroups/mg1/providers/Microsoft.Authorization/policyDefinitions/pol1" =
      .ok { ManagementGroupID := "/providers/Microsoft.Management/managementGroups/mg1"
            Name := "pol1" } :=
  (parse_nine_segments_succeeds _ (by decide)).trans rfl

/-- C9: the "empty or not formatted correctly" branch is unreachable —
splitting any string on "/" yields at least one component — so every parse
failure is the segment-count error. -/
theorem parse_empty_branch_unreachable (s : String) :
    (stringsSplit s '/').length ≠ 0 ∧
    ∀ e, parseManagementGroupPolicyDefinitionNameFromID s = .error e →
      e = .wrongSegmentCount 8 ((stringsSplit s '/').length - 1) s := by
  have h0 : (stringsSplit s '/').length ≠ 0 :=
    Nat.pos_iff_ne_zero.mp (stringsSplit_length_pos s '/')
  refine ⟨h0, fun e he => ?_⟩
  by_cases h9 : (stringsSplit s '/').length = 9
  · rw [parse_nine_segments_succeeds s h9] at he
    exact absurd he (by simp)
  · rw [(parse_wrong_segment_count_fails s h9).1] at he
    exact (Except.error.inj he).symm

/-- C9 witness: the empty string splits into one component, so even there
the failure is the segment-count error (got 0), not the empty-id error. -/
theorem parse_empty_branch_unreachable_witness :
    (stringsSplit "" '/').length ≠ 0 ∧
    ParseIdError.wrongSegmentCount 8 0 "" =
      .wrongSegmentCount 8 ((stringsSplit "" '/').length - 1) "" :=
  ⟨(parse_empty_branch_unreachable "").1,
    (parse_empty_branch_unreachable "").2 (.wrongSegmentCount 8 0 "") rfl⟩

/-! ## Generic JSON documents

`structure.ExpandJsonFromString` and `structure.FlattenJsonToString` are
thin wrappers around Go `encoding/json` (`json.Unmarshal` into a
`map[string]interface\x7b\x7d` and `json.Marshal` of one), which is not part of
this excerpt; both are modelled here. A decoded JSON value (Go
`interface\x7b\x7d`) is null, a boolean, a number, a string, an array, or a
string-keyed object. JSON numbers are decimal; Go decodes them into
`float64` and re-encodes with the shortest decimal form that reads back to
the same value, so a decode/encode round trip is exact on the decimal
values; the model keeps the decimal value itself, `mantissa * 10 ^ exponent`. -/
inductive JsonValue where
  | null
  | bool (b : Bool)
  | num (mantissa exponent : Int)
  | str (s : String)
  | arr (elems : List JsonValue)
  | obj (fields : List (String × JsonValue))

/-- The Go type assertion `v.(map[string]interface\x7b\x7d)`: yields the field
list exactly when the value is an object. -/
def JsonValue.asObject : JsonValue → Option (List (String × JsonValue))
  | .obj fields => some fields
  | _ => none

/-- Insert one field into a key-sorted field list, keeping it sorted
(`json.Marshal` writes map keys in sorted order; UTF-8 byte order agrees
with code-point order). -/
def insertField (p : String × JsonValue) :
    List (String × JsonValue) → List (String × JsonValue)
  | [] => [p]
  | q :: qs => if p.1 ≤ q.1 then p :: q :: qs else q :: insertField p qs

/-- Sort a field list by key (insertion sort). -/
def sortFields : List (String × JsonValue) → List (String × JsonValue)
  | [] => []
  | p :: ps => insertField p (sortFields ps)

mutual

/-- The canonical form `json.Marshal` encodes: object fields sorted by key
at every level, and the one redundant number form removed (a zero mantissa
forces exponent 0, since every zero encodes as "0"). -/
def canon : JsonValue → JsonValue
  | .null => .null
  | .bool b => .bool b
  | .num m e => if m = 0 then .num 0 0 else .num m e
  | .str s => .str s
  | .arr l => .arr (canonList l)
  | .obj fs => .obj (sortFields (canonFields fs))

def canonList : List JsonValue → List JsonValue
  | [] => []
  | v :: vs => canon v :: canonList vs

def canonFields : List (String × JsonValue) → List (String × JsonValue)
  | [] => []
  | (k, v) :: fs => (k, canon v) :: canonFields fs

end

/-- Lower-case hexadecimal digit, as `encoding/json` writes them. -/
def hexDigitChar (n : Nat) : Char :=
  if n < 10 then Char.ofNat (48 + n) else Char.ofNat (87 + n)

/-- The characters `json.Marshal` (with its default HTML escaping) writes
a `\uXXXX` escape for: control characters (newline, carriage return and
tab are handled before this test), the HTML characters, and the line
separators U+2028 and U+2029. -/
def needsHexEscape (c : Char) : Prop :=
  c.toNat < 32 ∨ c = '<' ∨ c = '>' ∨ c = '&' ∨ c.toNat = 8232 ∨ c.toNat = 8233

instance (c : Char) : Decidable (needsHexEscape c) :=
  inferInstanceAs (Decidable
    (c.toNat < 32 ∨ c = '<' ∨ c = '>' ∨ c = '&' ∨ c.toNat = 8232 ∨ c.toNat = 8233))

/-- One character of a JSON string as `json.Marshal` (with its default
HTML escaping) writes it: quote and backslash get a backslash escape;
newline, carriage return and tab get their two-character escapes; the
`needsHexEscape` characters get a `\uXXXX` escape; everything else is
written as itself. -/
def escapeJsonChar (c : Char) : List Char :=
  if c = '"' ∨ c = '\\' then ['\\', c]
  else if c = '\n' then ['\\', 'n']
  else if c = '\r' then ['\\', 'r']
  else if c = '\t' then ['\\', 't']
  else if needsHexEscape c then
    ['\\', 'u', hexDigitChar (c.toNat / 4096 % 16), hexDigitChar (c.toNat / 256 % 16),
      hexDigitChar (c.toNat / 16 % 16), hexDigitChar (c.toNat % 16)]
  else [c]

/-- A JSON string literal: the escaped characters between quotes. -/
def serializeJsonString (s : String) : List Char :=
  '"' :: s.toList.foldr (fun c acc => escapeJsonChar c ++ acc) ['"']

/-- Decimal digits of a natural number, most significant first (fuel
recursion on a bound that the division loop cannot exhaust, so that the
definition reduces in the kernel). -/
def natToDigitsFuel : Nat → Nat → List Char
  | 0, _ => []
  | fuel + 1, n =>
    if n = 0 then [] else natToDigitsFuel fuel (n / 10) ++ [Char.ofNat (48 + n % 10)]

/-- Standard decimal form of a natural number: no redundant leading zero. -/
def natToDigits (n : Nat) : List Char :=
  if n = 0 then ['0'] else natToDigitsFuel n n

/-- Standard decimal form of an integer. -/
def intToDigits (m : Int) : List Char :=
  if m < 0 then '-' :: natToDigits m.natAbs else natToDigits m.natAbs

/-- A JSON number literal for the decimal `m * 10 ^ e`: the mantissa,
followed by an explicit exponent when it is nonzero (every zero is written
"0"). -/
def serializeJsonNum (m e : Int) : List Char :=
  if m = 0 then ['0']
  else if e = 0 then intToDigits m
  else intToDigits m ++ 'e' :: intToDigits e

mutual

/-- Emit a JSON value, object fields in the order of the field list
(`flattenJsonToString` below applies this to the canonical form). -/
def serializeValue : JsonValue → List Char
  | .null => "null".toList
  | .bool b => (if b then "true" else "false").toList
  | .num m e => serializeJsonNum m e
  | .str s => serializeJsonString s
  | .arr l => '[' :: serializeElems l ++ [']']
  | .obj fs => '{' :: serializeFields fs ++ ['}']

def serializeElems : List JsonValue → List Char
  | [] => []
  | [v] => serializeValue v
  | v :: w :: vs => serializeValue v ++ ',' :: serializeElems (w :: vs)

def serializeFields : List (String × JsonValue) → List Char
  | [] => []
  | [(k, v)] => serializeJsonString k ++ ':' :: serializeValue v
  | (k, v) :: f :: fs =>
    serializeJsonString k ++ ':' :: serializeValue v ++ ',' :: serializeFields (f :: fs)

end

/-- `structure.FlattenJsonToString`: `json.Marshal` of a decoded
`map[string]interface\x7b\x7d` — the canonical encoding of the object with the
given fields. `json.Marshal` cannot fail on a value built from decoded
JSON, so the source's error branch after each flatten call is dead and the
model is total. -/
def FlattenJsonToString (fields : List (String × JsonValue)) : String :=
  String.mk (serializeValue (canon (.obj fields)))

/-! ## The SDK data model and the remote client -/

/-- `policy.DefinitionProperties` (the fields the source touches).
`PolicyType` and `Mode` are string-typed enums; `DisplayName` and
`Description` are `*string`; the three JSON fields hold a decoded JSON
value when present (`nil` otherwise). -/
structure DefinitionProperties where
  PolicyType : String
  Mode : String
  DisplayName : Option String
  Description : Option String
  PolicyRule : Option JsonValue
  Metadata : Option JsonValue
  Parameters : Option JsonValue

/-- `policy.Definition` (the fields the source touches). -/
structure Definition where
  ID : Option String
  Name : Option String
  DefinitionProperties : Option DefinitionProperties

/-- Outcome of a remote SDK call that returns a body: either the decoded
body with HTTP 200 (`err == nil`), or a non-nil error whose response
carries the HTTP status code — the Azure SDK returns a non-nil error for
every non-200 status, and the source's read path inspects the status code
of the error response to detect 404. -/
inductive GetOutcome where
  | ok (resp : Definition)
  | error (statusCode : Nat) (errMsg : String)

/-- Outcome of the remote delete call. -/
inductive DeleteOutcome where
  | ok
  | error (statusCode : Nat) (errMsg : String)

/-- Outcome of the remote create-or-update call. -/
inductive UpsertOutcome where
  | ok
  | error (errMsg : String)

/-- Modelled from the spec: `utils.ResponseWasNotFound` (from the
provider's utils package, not part of this excerpt) — per the spec, 404 is
the distinguished not-found signal consulted by the read and delete paths. -/
def responseWasNotFound (statusCode : Nat) : Bool :=
  statusCode == 404

/-- The flat Terraform state of the resource: the stored id plus the
schema fields, all strings (`d.Get` on an unset optional string yields ""). -/
structure ResourceData where
  Id : String
  name : String
  policy_type : String
  mode : String
  display_name : String
  description : String
  policy_rule : String
  metadata : String
  parameters : String
  management_group_id : String
  deriving DecidableEq, Repr

/-- Result of a lifecycle operation: the Go `error` return (`nil` plus the
updated state, or a non-nil error), with a separate constructor for a
runtime panic, which in Go aborts instead of returning. -/
inductive OpResult where
  | ok (d : ResourceData)
  | err (msg : String)
  | panicked (msg : String)
  deriving DecidableEq, Repr

/-! ## Read -/

/-- One of the three JSON-field blocks of the read function: when the
value is present, the unchecked Go type assertion
`.(map[string]interface\x7b\x7d)` demands an object — any other value is a
runtime panic — and the object is flattened back to its string form; when
the value is absent the block is skipped and the field keeps its previous
state. -/
def flattenJsonField (fieldVal : Option JsonValue) (old : String) : Except String String :=
  match fieldVal with
  | none => .ok old
  | some v =>
    match v.asObject with
    | none => .error "interface conversion: interface is not map[string]interface"
    | some fields => .ok (FlattenJsonToString fields)

/-- `resourceArmManagementGroupPolicyDefinitionRead`: parse the stored id;
issue the remote read; a not-found error response clears the stored id and
returns success; any other error response is an error; on success the
state is rebuilt from the response, flattening the three JSON fields. -/
def resourceArmManagementGroupPolicyDefinitionRead
    (get : String → String → GetOutcome) (d : ResourceData) : OpResult :=
  match parseManagementGroupPolicyDefinitionNameFromID d.Id with
  | .error e =>
    .err ("Error parsing Management Group Policy Definition name from ID " ++
      d.Id ++ ": " ++ e.message)
  | .ok id =>
    match get id.Name id.ManagementGroupID with
    | .error statusCode errMsg =>
      if responseWasNotFound statusCode then
        .ok { d with Id := "" }
      else
        .err ("Error making read request on Management Group Policy Definition " ++ errMsg)
    | .ok resp =>
      let d := { d with name := resp.Name.getD ""
                        management_group_id := id.ManagementGroupID }
      match resp.DefinitionProperties with
      | none => .ok d
      | some props =>
        let d := { d with policy_type := props.PolicyType
                          mode := props.Mode
                          display_name := props.DisplayName.getD ""
                          description := props.Description.getD "" }
        match flattenJsonField props.PolicyRule d.policy_rule with
        | .error m => .panicked m
        | .ok policyRuleStr =>
          match flattenJsonField props.Metadata d.metadata with
          | .error m => .panicked m
          | .ok metadataStr =>
            match flattenJsonField props.Parameters d.parameters with
            | .error m => .panicked m
            | .ok parametersStr =>
              .ok { d with policy_rule := policyRuleStr
                           metadata := metadataStr
                           parameters := parametersStr }

/-! ## Delete -/

/-- `resourceArmManagementGroupPolicyDefinitionDelete`: parse the stored
id; issue the remote delete; a not-found error response is success (the
resource is already absent); any other error response is an error. -/
def resourceArmManagementGroupPolicyDefinitionDelete
    (del : String → String → DeleteOutcome) (d : ResourceData) : Except String Unit :=
  match parseManagementGroupPolicyDefinitionNameFromID d.Id with
  | .error e =>
    .error ("Error parsing Management Group Policy Definition name from ID " ++
      d.Id ++ ": " ++ e.message)
  | .ok id =>
    match del id.Name id.ManagementGroupID with
    | .ok => .ok ()
    | .error statusCode errMsg =>
      if responseWasNotFound statusCode then
        .ok ()
      else
        .error ("Error deleting Policy Definition \"" ++ id.Name ++ "\": " ++ errMsg)

/-! ## Not-found handling of Read and Delete (C5), panic safety of Read (C10) -/

theorem flattenJsonField_none (old : String) : flattenJsonField none old = .ok old := rfl

theorem flattenJsonField_object {v : JsonValue} {fs : List (String × JsonValue)}
    (h : v.asObject = some fs) (old : String) :
    flattenJsonField (some v) old = .ok (FlattenJsonToString fs) := by
  rw [flattenJsonField, h]

theorem flattenJsonField_not_object {v : JsonValue} (h : v.asObject = none) (old : String) :
    flattenJsonField (some v) old =
      .error "interface conversion: interface is not map[string]interface" := by
  rw [flattenJsonField, h]

theorem flattenJsonField_error_msg {o : Option JsonValue} {old m : String}
    (h : flattenJsonField o old = .error m) :
    m = "interface conversion: interface is not map[string]interface" := by
  rcases o with _ | v
  · exact absurd h (by simp [flattenJsonField])
  · rw [flattenJsonField] at h
    rcases hv : v.asObject with _ | fs
    · rw [hv] at h
      exact (Except.error.inj h).symm
    · rw [hv] at h
      exact absurd h (by simp)

/-- The canonical id and scope used by concrete instances below. -/
def sampleResourceId : String :=
  "/providers/Microsoft.Management/managementGroups/mg1/providers/Microsoft.Authorization/policyDefinitions/pol1"

/-- The scope part of `sampleResourceId`. -/
def sampleScopeId : String :=
  "/providers/Microsoft.Management/managementGroups/mg1"

/-- A concrete resource state holding `sampleResourceId`. -/
def sampleState : ResourceData :=
  ⟨sampleResourceId, "pol1", "Custom", "All", "p", "", "", "", "", sampleScopeId⟩

/-- C5: a not-found (404) error response from the remote is not an error
for Read — it returns success with the stored id cleared to "" — nor for
Delete — it returns success, making delete idempotent on an already-absent
resource. -/
theorem read_delete_not_found_is_success
    (d : ResourceData) (id : managementGroupPolicyResourceID)
    (get : String → String → GetOutcome) (del : String → String → DeleteOutcome)
    (m1 m2 : String)
    (hid : parseManagementGroupPolicyDefinitionNameFromID d.Id = .ok id)
    (hget : get id.Name id.ManagementGroupID = .error 404 m1)
    (hdel : del id.Name id.ManagementGroupID = .error 404 m2) :
    resourceArmManagementGroupPolicyDefinitionRead get d = .ok { d with Id := "" } ∧
    resourceArmManagementGroupPolicyDefinitionDelete del d = .ok () := by
  simp only [resourceArmManagementGroupPolicyDefinitionRead,
    resourceArmManagementGroupPolicyDefinitionDelete, hid, hget, hdel, responseWasNotFound]
  simp

/-- C5 witness: on a state holding the literal id, with both remote calls
answering 404, Read succeeds with the id cleared and Delete succeeds. -/
theorem read_delete_not_found_is_success_witness :
    resourceArmManagementGroupPolicyDefinitionRead (fun _ _ => .error 404 "nf") sampleState =
      .ok { sampleState with Id := "" } ∧
    resourceArmManagementGroupPolicyDefinitionDelete (fun _ _ => .error 404 "nf") sampleState =
      .ok () :=
  read_delete_not_found_is_success sampleState ⟨sampleScopeId, "pol1"⟩
    (fun _ _ => .error 404 "nf") (fun _ _ => .error 404 "nf") "nf" "nf" (by rfl) rfl rfl

/-- A remote definition whose policy rule is a JSON string, not an object. -/
def sampleBadDefinition : Definition :=
  ⟨some "i", some "pol1", some ⟨"Custom", "All", some "p", none, some (.str "x"), none, none⟩⟩

/-- C10: on a successful remote read, the read function is panic-free when
each of the three JSON fields of the response, if present, is an object,
and a present non-object value in any of them makes it hit the unchecked
type assertion and panic instead of returning an error. -/
theorem read_panics_iff_non_object_field
    (d : ResourceData) (id : managementGroupPolicyResourceID)
    (get : String → String → GetOutcome) (resp : Definition) (props : DefinitionProperties)
    (hid : parseManagementGroupPolicyDefinitionNameFromID d.Id = .ok id)
    (hget : get id.Name id.ManagementGroupID = .ok resp)
    (hprops : resp.DefinitionProperties = some props) :
    (((∀ v ∈ props.PolicyRule, (JsonValue.asObject v).isSome) ∧
      (∀ v ∈ props.Metadata, (JsonValue.asObject v).isSome) ∧
      (∀ v ∈ props.Parameters, (JsonValue.asObject v).isSome)) →
      ∃ d2, resourceArmManagementGroupPolicyDefinitionRead get d = .ok d2) ∧
    (((∃ v, props.PolicyRule = some v ∧ v.asObject = none) ∨
      (∃ v, props.Metadata = some v ∧ v.asObject = none) ∨
      (∃ v, props.Parameters = some v ∧ v.asObject = none)) →
      resourceArmManagementGroupPolicyDefinitionRead get d =
        .panicked "interface conversion: interface is not map[string]interface") := by
  simp only [resourceArmManagementGroupPolicyDefinitionRead, hid, hget, hprops]
  constructor
  · rintro ⟨h1, h2, h3⟩
    have e1 : ∃ s1, flattenJsonField props.PolicyRule d.policy_rule = .ok s1 := by
      rcases hpr : props.PolicyRule with _ | v
      · exact ⟨d.policy_rule, rfl⟩
      · obtain ⟨fs, hfs⟩ := Option.isSome_iff_exists.mp (h1 v (by simp [hpr]))
        exact ⟨FlattenJsonToString fs, flattenJsonField_object hfs _⟩
    obtain ⟨s1, hs1⟩ := e1
    have e2 : ∃ s2, flattenJsonField props.Metadata d.metadata = .ok s2 := by
      rcases hpr : props.Metadata with _ | v
      · exact ⟨d.metadata, rfl⟩
      · obtain ⟨fs, hfs⟩ := Option.isSome_iff_exists.mp (h2 v (by simp [hpr]))
        exact ⟨FlattenJsonToString fs, flattenJsonField_object hfs _⟩
    obtain ⟨s2, hs2⟩ := e2
    have e3 : ∃ s3, flattenJsonField props.Parameters d.parameters = .ok s3 := by
      rcases hpr : props.Parameters with _ | v
      · exact ⟨d.parameters, rfl⟩
      · obtain ⟨fs, hfs⟩ := Option.isSome_iff_exists.mp (h3 v (by simp [hpr]))
        exact ⟨FlattenJsonToString fs, flattenJsonField_object hfs _⟩
    obtain ⟨s3, hs3⟩ := e3
    rw [hs1, hs2, hs3]
    exact ⟨_, rfl⟩
  · intro hbad
    rcases hbad with ⟨v, hv, hno⟩ | ⟨v, hv, hno⟩ | ⟨v, hv, hno⟩
    · rw [hv, flattenJsonField_not_object hno]
    · rcases hfr : flattenJsonField props.PolicyRule d.policy_rule with m | s1
      · rw [flattenJsonField_error_msg hfr]
      · rw [hv, flattenJsonField_not_object hno]
    · rcases hfr : flattenJsonField props.PolicyRule d.policy_rule with m | s1
      · rw [flattenJsonField_error_msg hfr]
      · rcases hfm : flattenJsonField props.Metadata d.metadata with m2 | s2
        · rw [flattenJsonField_error_msg hfm]
        · rw [hv, flattenJsonField_not_object hno]

/-- C10 witness: a response whose policy rule is the JSON string "x" (not
an object) makes Read panic rather than return an error. -/
theorem read_panics_iff_non_object_field_witness :
    resourceArmManagementGroupPolicyDefinitionRead (fun _ _ => .ok sampleBadDefinition)
      sampleState =
      .panicked "interface conversion: interface is not map[string]interface" :=
  (read_panics_iff_non_object_field sampleState ⟨sampleScopeId, "pol1"⟩
    (fun _ _ => .ok sampleBadDefinition) sampleBadDefinition
    ⟨"Custom", "All", some "p", none, some (.str "x"), none, none⟩
    (by rfl) rfl rfl).2 (Or.inl ⟨.str "x", rfl, rfl⟩)

/-! ## Decoding JSON (`structure.ExpandJsonFromString`, i.e. `json.Unmarshal`
into a `map[string]interface\x7b\x7d`)

The decoder is a recursive-descent parser over the character list. The
recursive pieces take explicit fuel so that they are structurally
recursive and reduce in the kernel; the fuel supplied at the entry points
cannot run out before the input does. -/

/-- Drop leading JSON whitespace. -/
def skipWs : List Char → List Char
  | [] => []
  | c :: cs => if c = ' ' ∨ c = '\t' ∨ c = '\n' ∨ c = '\r' then skipWs cs else c :: cs

/-- Value of one hexadecimal digit. -/
def hexDigitVal (c : Char) : Option Nat :=
  if '0' ≤ c ∧ c ≤ '9' then some (c.toNat - 48)
  else if 'a' ≤ c ∧ c ≤ 'f' then some (c.toNat - 87)
  else if 'A' ≤ c ∧ c ≤ 'F' then some (c.toNat - 55)
  else none

/-- Value of the four hex digits of a `\uXXXX` escape. -/
def hexQuad (h1 h2 h3 h4 : Char) : Option Nat :=
  match hexDigitVal h1, hexDigitVal h2, hexDigitVal h3, hexDigitVal h4 with
  | some a, some b, some c, some d => some (a * 4096 + b * 256 + c * 16 + d)
  | _, _, _, _ => none

/-- Body of a JSON string literal, after the opening quote: the decoded
characters and the input after the closing quote. Escapes follow
`encoding/json`: the simple escapes, `\uXXXX` escapes with UTF-16
surrogate pairs combined, a lone or mismatched surrogate decoded as U+FFFD
(a mismatched pair consumes only the first escape, as in Go), raw control
characters rejected. Each step consumes input, so fuel at least the input
length never runs out. -/
def parseStringBody : Nat → List Char → Option (List Char × List Char)
  | 0, _ => none
  | _ + 1, [] => none
  | fuel + 1, c :: cs =>
    if c = '"' then some ([], cs)
    else if c = '\\' then
      match cs with
      | 'u' :: h1 :: h2 :: h3 :: h4 :: cs2 =>
        match hexQuad h1 h2 h3 h4 with
        | none => none
        | some code =>
          if 55296 ≤ code ∧ code ≤ 56319 then
            match cs2 with
            | '\\' :: 'u' :: k1 :: k2 :: k3 :: k4 :: cs3 =>
              match hexQuad k1 k2 k3 k4 with
              | some code2 =>
                if 56320 ≤ code2 ∧ code2 ≤ 57343 then
                  (fun pr => (Char.ofNat (65536 + (code - 55296) * 1024 + (code2 - 56320)) :: pr.1, pr.2)) <$>
                    parseStringBody fuel cs3
                else
                  (fun pr => ('�' :: pr.1, pr.2)) <$>
                    parseStringBody fuel ('\\' :: 'u' :: k1 :: k2 :: k3 :: k4 :: cs3)
              | none =>
                (fun pr => ('�' :: pr.1, pr.2)) <$>
                  parseStringBody fuel ('\\' :: 'u' :: k1 :: k2 :: k3 :: k4 :: cs3)
            | _ => (fun pr => ('�' :: pr.1, pr.2)) <$> parseStringBody fuel cs2
          else if 56320 ≤ code ∧ code ≤ 57343 then
            (fun pr => ('�' :: pr.1, pr.2)) <$> parseStringBody fuel cs2
          else
            (fun pr => (Char.ofNat code :: pr.1, pr.2)) <$> parseStringBody fuel cs2
      | e :: cs2 =>
        if e = '"' ∨ e = '\\' ∨ e = '/' then
          (fun pr => (e :: pr.1, pr.2)) <$> parseStringBody fuel cs2
        else if e = 'b' then (fun pr => ('\x08' :: pr.1, pr.2)) <$> parseStringBody fuel cs2
        else if e = 'f' then (fun pr => ('\x0c' :: pr.1, pr.2)) <$> parseStringBody fuel cs2
        else if e = 'n' then (fun pr => ('\n' :: pr.1, pr.2)) <$> parseStringBody fuel cs2
        else if e = 'r' then (fun pr => ('\r' :: pr.1, pr.2)) <$> parseStringBody fuel cs2
        else if e = 't' then (fun pr => ('\t' :: pr.1, pr.2)) <$> parseStringBody fuel cs2
        else none
      | [] => none
    else if c.toNat < 32 then none
    else (fun pr => (c :: pr.1, pr.2)) <$> parseStringBody fuel cs

/-- A JSON string literal starting at the opening quote is parsed with
ample fuel. -/
def parseJsonStringAt (cs : List Char) : Option (List Char × List Char) :=
  parseStringBody (cs.length + 1) cs

/-- A decimal digit: code point between 48 and 57. -/
def isDigitChar (c : Char) : Bool :=
  48 ≤ c.toNat && c.toNat ≤ 57

/-- Leading decimal digits and the remainder. -/
def takeDigits : List Char → List Char × List Char
  | [] => ([], [])
  | c :: cs =>
    if isDigitChar c then
      let pr := takeDigits cs
      (c :: pr.1, pr.2)
    else ([], c :: cs)

/-- Numeric value of a digit list, most significant first. -/
def digitsToNat (ds : List Char) : Nat :=
  ds.foldl (fun acc c => acc * 10 + (c.toNat - 48)) 0

/-- Optional fraction part: its digit list (empty if absent) and the rest;
a decimal point must be followed by at least one digit. -/
def parseFrac : List Char → Option (List Char × List Char)
  | [] => some ([], [])
  | c :: r =>
    if c = '.' then
      match takeDigits r with
      | ([], _) => none
      | (fs, rest) => some (fs, rest)
    else some ([], c :: r)

/-- The optional sign of an exponent: its value and the input after it. -/
def parseExpSign : List Char → Int × List Char
  | [] => (1, [])
  | c :: t =>
    if c = '+' then (1, t)
    else if c = '-' then (-1, t)
    else (1, c :: t)

/-- Optional exponent part: its signed value (0 if absent) and the rest;
an exponent marker must be followed by at least one digit, after an
optional sign. -/
def parseExp : List Char → Option (Int × List Char)
  | [] => some (0, [])
  | c :: r =>
    if c = 'e' ∨ c = 'E' then
      let sr := parseExpSign r
      match takeDigits sr.2 with
      | ([], _) => none
      | (es, rest) => some (sr.1 * digitsToNat es, rest)
    else some (0, c :: r)

/-- The optional leading minus of a number: whether it is present, and
the input after it. -/
def parseNumSign : List Char → Bool × List Char
  | [] => (false, [])
  | c :: r => if c = '-' then (true, r) else (false, c :: r)

/-- A JSON number as `encoding/json` accepts it: optional minus, integer
part without redundant leading zero, optional fraction, optional exponent.
The decoded decimal value is the written digits with the decimal point
dropped (the mantissa) and the written exponent minus the number of
fraction digits. -/
def parseNumber (cs : List Char) : Option ((Int × Int) × List Char) :=
  let nr := parseNumSign cs
  match takeDigits nr.2 with
  | ([], _) => none
  | (ds, cs2) =>
    if 2 ≤ ds.length ∧ ds.headD ' ' = '0' then none
    else
      match parseFrac cs2 with
      | none => none
      | some (fs, cs3) =>
        match parseExp cs3 with
        | none => none
        | some (ex, cs4) =>
          let mAbs : Int := digitsToNat (ds ++ fs)
          some ((if nr.1 then -mAbs else mAbs, ex - fs.length), cs4)

/-- Decoding a JSON object into a Go map keeps, for each key, the last
value written for it; the model keeps each surviving field at its last
occurrence. -/
def dedupKeys : List (String × JsonValue) → List (String × JsonValue)
  | [] => []
  | (k, v) :: fs =>
    if fs.any (fun q => q.1 == k) then dedupKeys fs else (k, v) :: dedupKeys fs

mutual

/-- One JSON value starting at the input (after whitespace), and the rest
of the input. -/
def parseValueF : Nat → List Char → Option (JsonValue × List Char)
  | 0, _ => none
  | fuel + 1, cs =>
    match skipWs cs with
    | [] => none
    | c :: cs1 =>
      if c = '{' then
        match skipWs cs1 with
        | '}' :: cs2 => some (.obj [], cs2)
        | cs1w =>
          (fun pr => (JsonValue.obj (dedupKeys pr.1), pr.2)) <$> parseMembersF fuel cs1w
      else if c = '[' then
        match skipWs cs1 with
        | ']' :: cs2 => some (.arr [], cs2)
        | cs1w => (fun pr => (JsonValue.arr pr.1, pr.2)) <$> parseElemsF fuel cs1w
      else if c = '"' then
        (fun pr => (JsonValue.str (String.mk pr.1), pr.2)) <$> parseJsonStringAt cs1
      else if c = 't' then
        match cs1 with
        | 'r' :: 'u' :: 'e' :: r => some (.bool true, r)
        | _ => none
      else if c = 'f' then
        match cs1 with
        | 'a' :: 'l' :: 's' :: 'e' :: r => some (.bool false, r)
        | _ => none
      else if c = 'n' then
        match cs1 with
        | 'u' :: 'l' :: 'l' :: r => some (.null, r)
        | _ => none
      else
        (fun pr => (JsonValue.num pr.1.1 pr.1.2, pr.2)) <$> parseNumber (c :: cs1)

/-- The members of an object, from the first key to just after the closing
brace (the empty object is handled by the caller). -/
def parseMembersF : Nat → List Char → Option (List (String × JsonValue) × List Char)
  | 0, _ => none
  | fuel + 1, cs =>
    match skipWs cs with
    | '"' :: cs1 =>
      match parseJsonStringAt cs1 with
      | none => none
      | some (key, cs2) =>
        match skipWs cs2 with
        | ':' :: cs3 =>
          match parseValueF fuel cs3 with
          | none => none
          | some (v, cs4) =>
            match skipWs cs4 with
            | ',' :: cs5 =>
              (fun pr => ((String.mk key, v) :: pr.1, pr.2)) <$> parseMembersF fuel cs5
            | '}' :: cs5 => some ([(String.mk key, v)], cs5)
            | _ => none
        | _ => none
    | _ => none

/-- The elements of an array, from the first element to just after the
closing bracket (the empty array is handled by the caller). -/
def parseElemsF : Nat → List Char → Option (List JsonValue × List Char)
  | 0, _ => none
  | fuel + 1, cs =>
    match parseValueF fuel cs with
    | none => none
    | some (v, cs1) =>
      match skipWs cs1 with
      | ',' :: cs2 => (fun pr => (v :: pr.1, pr.2)) <$> parseElemsF fuel cs2
      | ']' :: cs2 => some ([v], cs2)
      | _ => none

end

/-- `structure.ExpandJsonFromString`: `json.Unmarshal` of the input into a
`map[string]interface\x7b\x7d` — parse one JSON value (the fuel bound cannot be
exhausted before the input, since every two recursion steps consume input),
require only whitespace after it, and require it to be an object. -/
def ExpandJsonFromString (input : String) : Except String (List (String × JsonValue)) :=
  match parseValueF (2 * input.toList.length + 2) input.toList with
  | none => .error "invalid JSON document"
  | some (v, rest) =>
    if skipWs rest ≠ [] then .error "invalid character after top-level value"
    else
      match v with
      | .obj fs => .ok fs
      | _ => .error "cannot unmarshal JSON value into map[string]interface"

/-! ## Create/Update: request building, the consistency wait, the operation -/

/-- One of the three JSON-field blocks of the create/update function: an
empty schema value is skipped (the request field stays nil, and no parse
is attempted); a non-empty one is decoded, an undecodable one failing with
the error that names the field. -/
def expandOptionalJsonField (fieldName value : String) : Except String (Option JsonValue) :=
  if value = "" then .ok none
  else
    match ExpandJsonFromString value with
    | .error e => .error ("unable to parse " ++ fieldName ++ ": " ++ e)
    | .ok fields => .ok (some (.obj fields))

/-- Lines 101-137 of the source: the `policy.DefinitionProperties` built
from the schema fields, or the first JSON-field error in source order
(policy_rule, metadata, parameters). -/
def buildDefinitionProperties (d : ResourceData) : Except String DefinitionProperties :=
  match expandOptionalJsonField "policy_rule" d.policy_rule with
  | .error m => .error m
  | .ok policyRule =>
    match expandOptionalJsonField "metadata" d.metadata with
    | .error m => .error m
    | .ok metaData =>
      match expandOptionalJsonField "parameters" d.parameters with
      | .error m => .error m
      | .ok parameters =>
        .ok { PolicyType := d.policy_type
              Mode := d.mode
              DisplayName := some d.display_name
              Description := some d.description
              PolicyRule := policyRule
              Metadata := metaData
              Parameters := parameters }

/-- The write call the Create/Update operation can issue, recorded in a
trace so that "the upsert was never invoked" is a statement of the model. -/
inductive RemoteCall where
  | createOrUpdate (name : String) (definition : Definition) (managementGroupID : String)

/-- What one invocation of the refresh closure built by
`managementGroupPolicyDefinitionRefreshFunc` returns: the state string
`strconv.Itoa(res.StatusCode)` (200 on a successful read, since the SDK
errs on any other status), and on a read error also the non-nil error —
note the source builds the error for every non-nil SDK error, with no
special case for 404. -/
inductive RefreshResult where
  | ok (state : String)
  | error (state : String) (msg : String)

/-- `managementGroupPolicyDefinitionRefreshFunc`: the refresh closure,
reading the remote at each invocation (`i` is the invocation number, so
the remote may answer differently over time). -/
def managementGroupPolicyDefinitionRefreshFunc
    (gets : Nat → String → String → GetOutcome)
    (name managementGroupID : String) (i : Nat) : RefreshResult :=
  match gets i name managementGroupID with
  | .ok _ => .ok (toString 200)
  | .error statusCode errMsg =>
    .error (toString statusCode)
      ("Error issuing read request in managementGroupPolicyDefinitionRefreshFunc for Management Group Policy Defintion \"" ++
        name ++ "\": " ++ errMsg)

/-- The configuration the operation passes to the generic state-change
wait helper (`helper/resource.StateChangeConf`); times in seconds. -/
structure StateChangeConf where
  Pending : List String
  Target : List String
  Timeout : Nat
  MinTimeout : Nat
  ContinuousTargetOccurence : Nat

/-- Outcome of the generic wait. -/
inductive WaitOutcome where
  | success
  | refreshError (msg : String)
  | timeout
  | unexpectedState (state : String)

/-- Modelled from the spec: the generic wait helper itself is not part of
this excerpt. Per the spec it repeatedly invokes the refresh closure, at
least MinTimeout seconds between invocations (`gap i` is any extra delay
before poll `i+1`), and an error from the refresh aborts the wait with
that error at once (the spec: errors during polling are fatal
immediately; only error-free refreshes take part in the pending/target
bookkeeping). A state in Target extends the consecutive-target streak,
and the wait succeeds when the streak reaches ContinuousTargetOccurence;
a state in Pending resets the streak to zero and the wait continues; any
other state aborts the wait; once Timeout seconds elapse the wait fails
with a timeout error. `t` is the elapsed time, `streak` the current
consecutive-target count, `i` the next poll number; the result carries
the number of polls consumed. The fuel starts above Timeout and each step
adds MinTimeout ≥ 1 seconds for the configurations in this file, so the
fuel cannot run out before the timeout check fires. -/
def waitLoop (conf : StateChangeConf) (refresh : Nat → RefreshResult) (gap : Nat → Nat) :
    Nat → Nat → Nat → Nat → WaitOutcome × Nat
  | 0, i, _, _ => (.timeout, i)
  | fuel + 1, i, t, streak =>
    if conf.Timeout ≤ t then (.timeout, i)
    else
      match refresh i with
      | .error _ msg => (.refreshError msg, i + 1)
      | .ok state =>
        if state ∈ conf.Target then
          if conf.ContinuousTargetOccurence ≤ streak + 1 then (.success, i + 1)
          else waitLoop conf refresh gap fuel (i + 1) (t + max conf.MinTimeout (gap i)) (streak + 1)
        else if state ∈ conf.Pending then
          waitLoop conf refresh gap fuel (i + 1) (t + max conf.MinTimeout (gap i)) 0
        else (.unexpectedState state, i + 1)

/-- `StateChangeConf.WaitForState`, from poll 0 at time 0. -/
def WaitForState (conf : StateChangeConf) (refresh : Nat → RefreshResult) (gap : Nat → Nat) :
    WaitOutcome × Nat :=
  waitLoop conf refresh gap (conf.Timeout + 1) 0 0 0

/-- The message `WaitForState` returns for each failing outcome. -/
def waitErrorMessage (target : String) : WaitOutcome → String
  | .success => ""
  | .refreshError msg => msg
  | .timeout => "timeout while waiting for state to become \x27" ++ target ++ "\x27"
  | .unexpectedState s =>
    "unexpected state \x27" ++ s ++ "\x27, wanted target \x27" ++ target ++ "\x27"

/-- `resourceArmManagementGroupPolicyDefinitionCreateUpdate`: build the
request from the schema fields — an undecodable non-empty JSON field
aborts here, before any remote call — then invoke the upsert; on success
wait for consistency with Pending ["404"], Target ["200"], a 5-minute
timeout, a 10-second minimum interval and 10 continuous target
occurrences; then fetch the definition, store its id (`*resp.ID`
dereferences a possibly-nil pointer: a nil one panics), and finish by
running the read function on the next remote answer. `gets i` answers the
`i`-th read of the remote (polls first, then the fetch, then the read
function's get). The result is paired with the trace of upsert calls. -/
def resourceArmManagementGroupPolicyDefinitionCreateUpdate
    (upsert : String → Definition → String → UpsertOutcome)
    (gets : Nat → String → String → GetOutcome)
    (gap : Nat → Nat) (d : ResourceData) : OpResult × List RemoteCall :=
  match buildDefinitionProperties d with
  | .error msg => (.err msg, [])
  | .ok properties =>
    let definition : Definition :=
      { ID := none, Name := some d.name, DefinitionProperties := some properties }
    let trace := [RemoteCall.createOrUpdate d.name definition d.management_group_id]
    match upsert d.name definition d.management_group_id with
    | .error errMsg =>
      (.err ("Error Creating/Updating Management Group Policy \"" ++ d.name ++ "\": " ++ errMsg),
        trace)
    | .ok =>
      let stateConf : StateChangeConf :=
        { Pending := ["404"], Target := ["200"], Timeout := 300, MinTimeout := 10,
          ContinuousTargetOccurence := 10 }
      match WaitForState stateConf
          (managementGroupPolicyDefinitionRefreshFunc gets d.name d.management_group_id) gap with
      | (.success, k) =>
        match gets k d.name d.management_group_id with
        | .error _ errMsg =>
          (.err ("Error retrieving Management Group Policy Definition \"" ++ d.name ++ "\": " ++
            errMsg), trace)
        | .ok resp =>
          match resp.ID with
          | none => (.panicked "runtime error: invalid memory address or nil pointer dereference",
              trace)
          | some respId =>
            (resourceArmManagementGroupPolicyDefinitionRead (gets (k + 1))
              { d with Id := respId }, trace)
      | (.refreshError msg, _) =>
        (.err ("Error waiting for Management Group Policy Definition \"" ++ d.name ++
          "\" to become available: " ++ msg), trace)
      | (.timeout, _) =>
        (.err ("Error waiting for Management Group Policy Definition \"" ++ d.name ++
          "\" to become available: " ++ waitErrorMessage "200" .timeout), trace)
      | (.unexpectedState s, _) =>
        (.err ("Error waiting for Management Group Policy Definition \"" ++ d.name ++
          "\" to become available: " ++ waitErrorMessage "200" (.unexpectedState s)), trace)

/-! ## JSON-field handling of Create/Update (C6, C7) -/

theorem expandOptionalJsonField_empty (fieldName : String) :
    expandOptionalJsonField fieldName "" = .ok none := rfl

theorem expandOptionalJsonField_error (fieldName value e : String)
    (hv : value ≠ "") (he : ExpandJsonFromString value = .error e) :
    expandOptionalJsonField fieldName value =
      .error ("unable to parse " ++ fieldName ++ ": " ++ e) := by
  rw [expandOptionalJsonField, if_neg hv, he]

theorem expandOptionalJsonField_parsed (fieldName value : String)
    (fs : List (String × JsonValue))
    (hv : value ≠ "") (he : ExpandJsonFromString value = .ok fs) :
    expandOptionalJsonField fieldName value = .ok (some (.obj fs)) := by
  rw [expandOptionalJsonField, if_neg hv, he]

theorem expandOptionalJsonField_ok (fieldName value : String)
    (h : ¬(value ≠ "" ∧ ∃ e, ExpandJsonFromString value = .error e)) :
    ∃ o, expandOptionalJsonField fieldName value = .ok o := by
  by_cases hv : value = ""
  · exact ⟨none, by rw [hv]; exact expandOptionalJsonField_empty fieldName⟩
  · push_neg at h
    rcases he : ExpandJsonFromString value with e | fs
    · exact absurd he (h hv e)
    · exact ⟨some (.obj fs), expandOptionalJsonField_parsed fieldName value fs hv he⟩

theorem buildDefinitionProperties_ok_inv (d : ResourceData) (props : DefinitionProperties)
    (h : buildDefinitionProperties d = .ok props) :
    ∃ o1 o2 o3, expandOptionalJsonField "policy_rule" d.policy_rule = .ok o1 ∧
      expandOptionalJsonField "metadata" d.metadata = .ok o2 ∧
      expandOptionalJsonField "parameters" d.parameters = .ok o3 ∧
      props = ⟨d.policy_type, d.mode, some d.display_name, some d.description, o1, o2, o3⟩ := by
  rw [buildDefinitionProperties] at h
  rcases h1 : expandOptionalJsonField "policy_rule" d.policy_rule with m | o1 <;> rw [h1] at h
  · exact absurd h (by simp)
  · rcases h2 : expandOptionalJsonField "metadata" d.metadata with m | o2 <;> rw [h2] at h
    · exact absurd h (by simp)
    · rcases h3 : expandOptionalJsonField "parameters" d.parameters with m | o3 <;> rw [h3] at h
      · exact absurd h (by simp)
      · exact ⟨o1, o2, o3, rfl, rfl, rfl, (Except.ok.inj h).symm⟩

theorem createUpdate_trace (upsert : String → Definition → String → UpsertOutcome)
    (gets : Nat → String → String → GetOutcome) (gap : Nat → Nat)
    (d : ResourceData) (props : DefinitionProperties)
    (hprops : buildDefinitionProperties d = .ok props) :
    (resourceArmManagementGroupPolicyDefinitionCreateUpdate upsert gets gap d).2 =
      [.createOrUpdate d.name ⟨none, some d.name, some props⟩ d.management_group_id] := by
  rw [resourceArmManagementGroupPolicyDefinitionCreateUpdate, hprops]
  dsimp only
  repeat' split
  all_goals rfl

/-- C6: if any of the three optional JSON fields is non-empty and fails to
decode, Create/Update fails with the error naming the offending field (the
first one in source order), and no upsert call is made: the trace is
empty. -/
theorem createUpdate_bad_json_field_atomic
    (upsert : String → Definition → String → UpsertOutcome)
    (gets : Nat → String → String → GetOutcome) (gap : Nat → Nat) (d : ResourceData)
    (hbad : (d.policy_rule ≠ "" ∧ ∃ e, ExpandJsonFromString d.policy_rule = .error e) ∨
            (d.metadata ≠ "" ∧ ∃ e, ExpandJsonFromString d.metadata = .error e) ∨
            (d.parameters ≠ "" ∧ ∃ e, ExpandJsonFromString d.parameters = .error e)) :
    ∃ f e,
      ((f = "policy_rule" ∧ d.policy_rule ≠ "" ∧ ExpandJsonFromString d.policy_rule = .error e) ∨
       (f = "metadata" ∧ d.metadata ≠ "" ∧ ExpandJsonFromString d.metadata = .error e) ∨
       (f = "parameters" ∧ d.parameters ≠ "" ∧ ExpandJsonFromString d.parameters = .error e)) ∧
      resourceArmManagementGroupPolicyDefinitionCreateUpdate upsert gets gap d =
        (.err ("unable to parse " ++ f ++ ": " ++ e), []) := by
  by_cases hpr : d.policy_rule ≠ "" ∧ ∃ e, ExpandJsonFromString d.policy_rule = .error e
  · obtain ⟨hne, e, he⟩ := hpr
    refine ⟨"policy_rule", e, Or.inl ⟨rfl, hne, he⟩, ?_⟩
    rw [resourceArmManagementGroupPolicyDefinitionCreateUpdate, buildDefinitionProperties,
      expandOptionalJsonField_error _ _ e hne he]
  · obtain ⟨o1, ho1⟩ := expandOptionalJsonField_ok "policy_rule" d.policy_rule hpr
    by_cases hm : d.metadata ≠ "" ∧ ∃ e, ExpandJsonFromString d.metadata = .error e
    · obtain ⟨hne, e, he⟩ := hm
      refine ⟨"metadata", e, Or.inr (Or.inl ⟨rfl, hne, he⟩), ?_⟩
      rw [resourceArmManagementGroupPolicyDefinitionCreateUpdate, buildDefinitionProperties, ho1,
        expandOptionalJsonField_error _ _ e hne he]
    · obtain ⟨o2, ho2⟩ := expandOptionalJsonField_ok "metadata" d.metadata hm
      rcases hbad with h | h | h
      · exact absurd h hpr
      · exact absurd h hm
      · obtain ⟨hne, e, he⟩ := h
        refine ⟨"parameters", e, Or.inr (Or.inr ⟨rfl, hne, he⟩), ?_⟩
        rw [resourceArmManagementGroupPolicyDefinitionCreateUpdate, buildDefinitionProperties,
          ho1, ho2, expandOptionalJsonField_error _ _ e hne he]

/-- C6 witness: with metadata the undecodable string consisting of one
opening brace, Create/Update fails naming metadata and the trace is empty. -/
theorem createUpdate_bad_json_field_atomic_witness :
    ∃ f e,
      ((f = "policy_rule" ∧ "" ≠ "" ∧ ExpandJsonFromString "" = .error e) ∨
       (f = "metadata" ∧ "\x7b" ≠ "" ∧ ExpandJsonFromString "\x7b" = .error e) ∨
       (f = "parameters" ∧ "" ≠ "" ∧ ExpandJsonFromString "" = .error e)) ∧
      resourceArmManagementGroupPolicyDefinitionCreateUpdate (fun _ _ _ => .ok)
        (fun _ _ _ => .error 404 "nf") (fun _ => 0)
        ⟨"", "pol1", "Custom", "All", "p", "", "", "\x7b", "", "mg"⟩ =
        (.err ("unable to parse " ++ f ++ ": " ++ e), []) :=
  createUpdate_bad_json_field_atomic (fun _ _ _ => .ok) (fun _ _ _ => .error 404 "nf")
    (fun _ => 0) ⟨"", "pol1", "Custom", "All", "p", "", "", "\x7b", "", "mg"⟩
    (Or.inr (Or.inl ⟨by decide, "invalid JSON document", rfl⟩))

/-- C7: an empty optional JSON field is skipped: no decode is attempted
(decoding "" itself would fail, yet the build succeeds and leaves the
request field nil), while each non-empty field is decoded as usual into
the request object handed to the upsert call. -/
theorem createUpdate_empty_json_field_unset
    (upsert : String → Definition → String → UpsertOutcome)
    (gets : Nat → String → String → GetOutcome) (gap : Nat → Nat)
    (d : ResourceData) (props : DefinitionProperties)
    (hprops : buildDefinitionProperties d = .ok props) :
    (∃ e, ExpandJsonFromString "" = .error e) ∧
    (∀ f, expandOptionalJsonField f "" = .ok none) ∧
    (d.policy_rule = "" → props.PolicyRule = none) ∧
    (d.metadata = "" → props.Metadata = none) ∧
    (d.parameters = "" → props.Parameters = none) ∧
    (∀ fs, d.policy_rule ≠ "" → ExpandJsonFromString d.policy_rule = .ok fs →
      props.PolicyRule = some (.obj fs)) ∧
    (∀ fs, d.metadata ≠ "" → ExpandJsonFromString d.metadata = .ok fs →
      props.Metadata = some (.obj fs)) ∧
    (∀ fs, d.parameters ≠ "" → ExpandJsonFromString d.parameters = .ok fs →
      props.Parameters = some (.obj fs)) ∧
    (resourceArmManagementGroupPolicyDefinitionCreateUpdate upsert gets gap d).2 =
      [.createOrUpdate d.name ⟨none, some d.name, some props⟩ d.management_group_id] := by
  obtain ⟨o1, o2, o3, h1, h2, h3, hp⟩ := buildDefinitionProperties_ok_inv d props hprops
  subst hp
  refine ⟨⟨"invalid JSON document", rfl⟩, fun f => expandOptionalJsonField_empty f,
    ?_, ?_, ?_, ?_, ?_, ?_, createUpdate_trace upsert gets gap d _ hprops⟩
  · intro hv
    rw [hv, expandOptionalJsonField_empty] at h1
    exact (Except.ok.inj h1).symm
  · intro hv
    rw [hv, expandOptionalJsonField_empty] at h2
    exact (Except.ok.inj h2).symm
  · intro hv
    rw [hv, expandOptionalJsonField_empty] at h3
    exact (Except.ok.inj h3).symm
  · intro fs hv he
    rw [expandOptionalJsonField_parsed _ _ fs hv he] at h1
    exact (Except.ok.inj h1).symm
  · intro fs hv he
    rw [expandOptionalJsonField_parsed _ _ fs hv he] at h2
    exact (Except.ok.inj h2).symm
  · intro fs hv he
    rw [expandOptionalJsonField_parsed _ _ fs hv he] at h3
    exact (Except.ok.inj h3).symm

/-- A schema state for C7: policy_rule and parameters empty, metadata a
one-field object. -/
def c7state : ResourceData :=
  ⟨"", "pol1", "Custom", "All", "p", "", "", "\x7b\"a\":1\x7d", "", "mg"⟩

/-- The request properties built from `c7state`. -/
def c7props : DefinitionProperties :=
  ⟨"Custom", "All", some "p", some "", none, some (.obj [("a", .num 1 0)]), none⟩

/-- C7 witness: on `c7state` the empty fields stay nil in the upsert
request, the non-empty metadata is decoded into it, and that request is
the one traced to the upsert. -/
theorem createUpdate_empty_json_field_unset_witness :
    buildDefinitionProperties c7state = .ok c7props ∧
    c7props.PolicyRule = none ∧
    c7props.Parameters = none ∧
    c7props.Metadata = some (.obj [("a", .num 1 0)]) ∧
    (resourceArmManagementGroupPolicyDefinitionCreateUpdate (fun _ _ _ => .ok)
      (fun _ _ _ => .error 404 "nf") (fun _ => 0) c7state).2 =
      [.createOrUpdate "pol1" ⟨none, some "pol1", some c7props⟩ "mg"] := by
  have h := createUpdate_empty_json_field_unset (fun _ _ _ => .ok)
    (fun _ _ _ => .error 404 "nf") (fun _ => 0) c7state c7props rfl
  exact ⟨rfl, h.2.2.1 rfl, h.2.2.2.2.1 rfl,
    h.2.2.2.2.2.2.1 [("a", .num 1 0)] (by decide) rfl,
    h.2.2.2.2.2.2.2.2⟩

/-! ## The post-write consistency wait (C1, C2) -/

/-- The remote definition returned once the write is visible. -/
def sampleRemoteDefinition : Definition :=
  ⟨some sampleResourceId, some "pol1",
    some ⟨"Custom", "All", some "p", some "", some (.obj [("if", .bool true)]), none, none⟩⟩

/-- The schema state for a create: no stored id yet, one JSON field set. -/
def sampleCreateState : ResourceData :=
  ⟨"", "pol1", "Custom", "All", "p", "", "\x7b\"if\":true\x7d", "", "", sampleScopeId⟩

/-- The wait configuration the source passes: Pending ["404"], Target
["200"], 5-minute timeout, 10-second minimum interval, 10 continuous
target occurrences. -/
def sampleStateConf : StateChangeConf := ⟨["404"], ["200"], 300, 10, 10⟩

/-- C1, counter to the claim: a single not-found (404) response during the
post-write poll is not treated as the pending state — the SDK read returns
a non-nil error for the 404, the refresh closure forwards every non-nil
error, and the wait aborts on a refresh error — so the operation fails on
the very first 404, even though the configuration lists "404" as a
pending state. With the same remote never answering 404 the operation
succeeds, isolating the 404 response as the cause. -/
theorem createUpdate_aborts_on_first_not_found_poll :
    (resourceArmManagementGroupPolicyDefinitionCreateUpdate (fun _ _ _ => .ok)
      (fun i _ _ => if i = 0 then .error 404 "result was 404" else .ok sampleRemoteDefinition)
      (fun _ => 0) sampleCreateState).1 =
      .err ("Error waiting for Management Group Policy Definition \"pol1\" to become available: " ++
        "Error issuing read request in managementGroupPolicyDefinitionRefreshFunc for Management Group Policy Defintion \"pol1\": result was 404") ∧
    (resourceArmManagementGroupPolicyDefinitionCreateUpdate (fun _ _ _ => .ok)
      (fun _ _ _ => .ok sampleRemoteDefinition) (fun _ => 0) sampleCreateState).1 =
      .ok { sampleCreateState with Id := sampleResourceId } :=
  ⟨rfl, rfl⟩

/-- C2: with the source's configuration the wait does demand 10
consecutive successful reads (an always-successful remote completes the
wait exactly at the 10th poll) and does fail with the timeout error when
5 minutes elapse first (here every poll takes 300 seconds); but counter
to the claim, a not-found response mid-streak (three successes, then one
404, then stable successes) does not reset the success counter and
continue — it aborts the whole operation with the refresh error. -/
theorem createUpdate_wait_semantics :
    WaitForState sampleStateConf
      (managementGroupPolicyDefinitionRefreshFunc (fun _ _ _ => .ok sampleRemoteDefinition)
        "pol1" sampleScopeId) (fun _ => 0) = (.success, 10) ∧
    (WaitForState sampleStateConf
      (managementGroupPolicyDefinitionRefreshFunc (fun _ _ _ => .ok sampleRemoteDefinition)
        "pol1" sampleScopeId) (fun _ => 300)).1 = .timeout ∧
    (resourceArmManagementGroupPolicyDefinitionCreateUpdate (fun _ _ _ => .ok)
      (fun _ _ _ => .ok sampleRemoteDefinition) (fun _ => 300) sampleCreateState).1 =
      .err ("Error waiting for Management Group Policy Definition \"pol1\" to become available: " ++
        "timeout while waiting for state to become \x27200\x27") ∧
    (resourceArmManagementGroupPolicyDefinitionCreateUpdate (fun _ _ _ => .ok)
      (fun i _ _ => if i = 3 then .error 404 "result was 404" else .ok sampleRemoteDefinition)
      (fun _ => 0) sampleCreateState).1 =
      .err ("Error waiting for Management Group Policy Definition \"pol1\" to become available: " ++
        "Error issuing read request in managementGroupPolicyDefinitionRefreshFunc for Management Group Policy Defintion \"pol1\": result was 404") :=
  ⟨rfl, rfl, rfl, rfl⟩

/-! ## Round trip of the JSON codec (C8): string literals -/

theorem stringMk_toList (s : String) : String.mk s.toList = s := rfl

theorem skipWs_cons_of_not_ws {c : Char} (cs : List Char)
    (h : ¬(c = ' ' ∨ c = '\t' ∨ c = '\n' ∨ c = '\r')) :
    skipWs (c :: cs) = c :: cs := by
  rw [skipWs, if_neg h]

theorem foldr_escape_append (l : List Char) (init rest : List Char) :
    l.foldr (fun c acc => escapeJsonChar c ++ acc) init ++ rest =
      l.foldr (fun c acc => escapeJsonChar c ++ acc) (init ++ rest) := by
  induction l with
  | nil => rfl
  | cons c l ih => simp only [List.foldr_cons, List.append_assoc, ih]

theorem hexDigitVal_hexDigitChar : ∀ n < 16, hexDigitVal (hexDigitChar n) = some n := by
  decide

theorem hexQuad_decompose (code : Nat) (h : code < 65536) :
    hexQuad (hexDigitChar (code / 4096 % 16)) (hexDigitChar (code / 256 % 16))
      (hexDigitChar (code / 16 % 16)) (hexDigitChar (code % 16)) = some code := by
  rw [hexQuad, hexDigitVal_hexDigitChar _ (Nat.mod_lt _ (by norm_num)),
    hexDigitVal_hexDigitChar _ (Nat.mod_lt _ (by norm_num)),
    hexDigitVal_hexDigitChar _ (Nat.mod_lt _ (by norm_num)),
    hexDigitVal_hexDigitChar _ (Nat.mod_lt _ (by norm_num))]
  show some (code / 4096 % 16 * 4096 + code / 256 % 16 * 256 + code / 16 % 16 * 16 + code % 16) =
    some code
  exact congrArg some (by omega)

theorem needsHexEscape_code_lt {c : Char} (h : needsHexEscape c) : c.toNat < 65536 := by
  rcases h with h | h | h | h | h | h <;> first
    | omega
    | (subst h; decide)

theorem needsHexEscape_not_surrogate {c : Char} (h : needsHexEscape c) :
    ¬(55296 ≤ c.toNat ∧ c.toNat ≤ 56319) ∧ ¬(56320 ≤ c.toNat ∧ c.toNat ≤ 57343) := by
  rcases h with h | h | h | h | h | h <;> first
    | omega
    | (subst h; decide)

theorem parseStringBody_foldr (l : List Char) : ∀ (rest : List Char) (fuel : Nat),
    (l.foldr (fun c acc => escapeJsonChar c ++ acc) ('"' :: rest)).length ≤ fuel →
    parseStringBody fuel (l.foldr (fun c acc => escapeJsonChar c ++ acc) ('"' :: rest)) =
      some (l, rest) := by
  induction l with
  | nil =>
    intro rest fuel hf
    simp only [List.foldr_nil, List.length_cons] at hf
    obtain ⟨f, rfl⟩ : ∃ f, fuel = f + 1 := ⟨fuel - 1, by omega⟩
    rw [List.foldr_nil, parseStringBody.eq_def]
    simp
  | cons c l ih =>
    intro rest fuel hf
    simp only [List.foldr_cons] at hf ⊢
    by_cases h1 : c = '"' ∨ c = '\\'
    · rw [escapeJsonChar, if_pos h1] at hf ⊢
      simp only [List.cons_append, List.length_cons, List.nil_append] at hf ⊢
      obtain ⟨f, rfl⟩ : ∃ f, fuel = f + 1 := ⟨fuel - 1, by omega⟩
      rcases h1 with rfl | rfl <;>
        (rw [parseStringBody.eq_def]; simp [ih rest f (by omega)])
    · by_cases h2 : c = '\n'
      · subst h2
        rw [escapeJsonChar, if_neg h1, if_pos rfl] at hf ⊢
        simp only [List.cons_append, List.length_cons, List.nil_append] at hf ⊢
        obtain ⟨f, rfl⟩ : ∃ f, fuel = f + 1 := ⟨fuel - 1, by omega⟩
        rw [parseStringBody.eq_def]
        simp [ih rest f (by omega)]
      · by_cases h3 : c = '\r'
        · subst h3
          rw [escapeJsonChar, if_neg h1, if_neg h2, if_pos rfl] at hf ⊢
          simp only [List.cons_append, List.length_cons, List.nil_append] at hf ⊢
          obtain ⟨f, rfl⟩ : ∃ f, fuel = f + 1 := ⟨fuel - 1, by omega⟩
          rw [parseStringBody.eq_def]
          simp [ih rest f (by omega)]
        · by_cases h4 : c = '\t'
          · subst h4
            rw [escapeJsonChar, if_neg h1, if_neg h2, if_neg h3, if_pos rfl] at hf ⊢
            simp only [List.cons_append, List.length_cons, List.nil_append] at hf ⊢
            obtain ⟨f, rfl⟩ : ∃ f, fuel = f + 1 := ⟨fuel - 1, by omega⟩
            rw [parseStringBody.eq_def]
            simp [ih rest f (by omega)]
          · by_cases h5 : needsHexEscape c
            · rw [escapeJsonChar, if_neg h1, if_neg h2, if_neg h3, if_neg h4, if_pos h5] at hf ⊢
              simp only [List.cons_append, List.length_cons, List.nil_append] at hf ⊢
              obtain ⟨f, rfl⟩ : ∃ f, fuel = f + 1 := ⟨fuel - 1, by omega⟩
              have hq := hexQuad_decompose c.toNat (needsHexEscape_code_lt h5)
              have hns := needsHexEscape_not_surrogate h5
              rw [parseStringBody.eq_def]
              simp [hq, hns.1, hns.2, ih rest f (by omega), Char.ofNat_toNat]
            · rw [escapeJsonChar, if_neg h1, if_neg h2, if_neg h3, if_neg h4, if_neg h5] at hf ⊢
              simp only [List.cons_append, List.length_cons, List.nil_append,
                List.singleton_append] at hf ⊢
              obtain ⟨f, rfl⟩ : ∃ f, fuel = f + 1 := ⟨fuel - 1, by omega⟩
              have hcq : ¬(c = '"') := fun hh => h1 (Or.inl hh)
              have hcb : ¬(c = '\\') := fun hh => h1 (Or.inr hh)
              have hcc : ¬(c.toNat < 32) := fun hh => h5 (Or.inl hh)
              rw [parseStringBody.eq_def]
              simp [hcq, hcb, hcc, ih rest f (by omega)]

theorem parseJsonStringAt_inv (l : List Char) (rest : List Char) :
    parseJsonStringAt (l.foldr (fun c acc => escapeJsonChar c ++ acc) ('"' :: rest)) =
      some (l, rest) :=
  parseStringBody_foldr l rest _ (Nat.le_succ _)

/-! ## Round trip of the JSON codec (C8): numbers -/

theorem digit_char_facts : ∀ k < 10, isDigitChar (Char.ofNat (48 + k)) = true ∧
    (Char.ofNat (48 + k)).toNat = 48 + k ∧ (k ≠ 0 → Char.ofNat (48 + k) ≠ '0') := by
  decide

theorem isDigitChar_bounds {c : Char} (h : isDigitChar c = true) :
    48 ≤ c.toNat ∧ c.toNat ≤ 57 := by
  simpa [isDigitChar] using h

theorem digit_not_special {c : Char} (h : isDigitChar c = true) :
    c ≠ '-' ∧ c ≠ '+' ∧ c ≠ '.' ∧ c ≠ 'e' ∧ c ≠ 'E' :=
  ⟨fun he => absurd (he ▸ h) (by decide), fun he => absurd (he ▸ h) (by decide),
   fun he => absurd (he ▸ h) (by decide), fun he => absurd (he ▸ h) (by decide),
   fun he => absurd (he ▸ h) (by decide)⟩

theorem digitsToNat_append_digit (ds : List Char) (c : Char) :
    digitsToNat (ds ++ [c]) = digitsToNat ds * 10 + (c.toNat - 48) := by
  simp [digitsToNat, List.foldl_append]

theorem headD_append_of_ne_nil {l : List Char} (l2 : List Char) (d : Char) (h : l ≠ []) :
    (l ++ l2).headD d = l.headD d := by
  cases l with
  | nil => exact absurd rfl h
  | cons c cs => rfl

theorem natToDigitsFuel_spec (n : Nat) : ∀ fuel, n ≤ fuel →
    (∀ c ∈ natToDigitsFuel fuel n, isDigitChar c = true) ∧
    digitsToNat (natToDigitsFuel fuel n) = n ∧
    (n ≠ 0 → natToDigitsFuel fuel n ≠ [] ∧ (natToDigitsFuel fuel n).headD ' ' ≠ '0') := by
  induction n using Nat.strong_induction_on with
  | _ n ih =>
    intro fuel hle
    by_cases hn : n = 0
    · subst hn
      cases fuel with
      | zero => simp [natToDigitsFuel, digitsToNat]
      | succ f => simp [natToDigitsFuel, digitsToNat]
    · obtain ⟨f, rfl⟩ : ∃ f, fuel = f + 1 := ⟨fuel - 1, by omega⟩
      rw [natToDigitsFuel, if_neg hn]
      have hdiv : n / 10 < n := Nat.div_lt_self (by omega) (by norm_num)
      obtain ⟨hd, hv, hnz⟩ := ih (n / 10) hdiv f (by omega)
      have hdig := digit_char_facts (n % 10) (Nat.mod_lt _ (by norm_num))
      refine ⟨?_, ?_, fun _ => ⟨by simp, ?_⟩⟩
      · intro c hc
        rcases List.mem_append.mp hc with hc | hc
        · exact hd c hc
        · rw [List.mem_singleton.mp hc]
          exact hdig.1
      · rw [digitsToNat_append_digit, hv, hdig.2.1]
        omega
      · by_cases h10 : n / 10 = 0
        · have hemp : natToDigitsFuel f (n / 10) = [] := by
            rw [h10]; cases f <;> simp [natToDigitsFuel]
          rw [hemp, List.nil_append]
          exact hdig.2.2 (by omega)
        · rw [headD_append_of_ne_nil _ _ (hnz h10).1]
          exact (hnz h10).2

theorem natToDigits_spec (n : Nat) :
    (∀ c ∈ natToDigits n, isDigitChar c = true) ∧
    digitsToNat (natToDigits n) = n ∧
    natToDigits n ≠ [] ∧
    ¬(2 ≤ (natToDigits n).length ∧ (natToDigits n).headD ' ' = '0') := by
  by_cases hn : n = 0
  · subst hn
    refine ⟨by decide, by decide, by decide, ?_⟩
    rw [natToDigits]
    simp
  · rw [natToDigits, if_neg hn]
    obtain ⟨hd, hv, hnz⟩ := natToDigitsFuel_spec n n le_rfl
    exact ⟨hd, hv, (hnz hn).1, fun hcon => (hnz hn).2 hcon.2⟩

/-- The input does not continue a number here: an empty remainder or one
whose first character is neither a digit nor a fraction or exponent
marker. -/
def numBoundary : List Char → Prop
  | [] => True
  | c :: _ => isDigitChar c = false ∧ c ≠ '.' ∧ c ≠ 'e' ∧ c ≠ 'E'

/-- The remainder does not begin with a digit. -/
def headNotDigit : List Char → Prop
  | [] => True
  | c :: _ => isDigitChar c = false

theorem numBoundary.toHeadNotDigit {r : List Char} (h : numBoundary r) : headNotDigit r := by
  cases r with
  | nil => trivial
  | cons c t => exact h.1

theorem takeDigits_all (ds : List Char) (hds : ∀ c ∈ ds, isDigitChar c = true) :
    ∀ rest, headNotDigit rest → takeDigits (ds ++ rest) = (ds, rest) := by
  induction ds with
  | nil =>
    intro rest hrest
    cases rest with
    | nil => rfl
    | cons c t =>
      have hcf : isDigitChar c = false := hrest
      rw [List.nil_append, takeDigits, if_neg (by simp [hcf])]
  | cons d ds ih =>
    intro rest hrest
    rw [List.cons_append, takeDigits, if_pos (hds d (by simp)),
      ih (fun c hc => hds c (by simp [hc])) rest hrest]

theorem parseFrac_boundary (r : List Char) (h : numBoundary r) :
    parseFrac r = some ([], r) := by
  cases r with
  | nil => rfl
  | cons c t => rw [parseFrac, if_neg h.2.1]

theorem parseExp_boundary (r : List Char) (h : numBoundary r) :
    parseExp r = some (0, r) := by
  cases r with
  | nil => rfl
  | cons c t =>
    rw [parseExp, if_neg ?_]
    rintro (he | he)
    · exact h.2.2.1 he
    · exact h.2.2.2 he

theorem mantissa_parse (m : Int) (tail : List Char) (htail : headNotDigit tail) :
    ∃ d ds, parseNumSign (intToDigits m ++ tail) = (decide (m < 0), (d :: ds) ++ tail) ∧
      takeDigits ((d :: ds) ++ tail) = (d :: ds, tail) ∧
      ¬(2 ≤ (d :: ds).length ∧ (d :: ds).headD ' ' = '0') ∧
      digitsToNat (d :: ds) = m.natAbs := by
  obtain ⟨hdigA, hvalA, hneA, hlzA⟩ := natToDigits_spec m.natAbs
  obtain ⟨d, ds, hds⟩ := List.exists_cons_of_ne_nil hneA
  refine ⟨d, ds, ?_, hds ▸ takeDigits_all _ hdigA tail htail, hds ▸ hlzA, hds ▸ hvalA⟩
  by_cases hneg : m < 0
  · rw [intToDigits, if_pos hneg, List.cons_append, parseNumSign, if_pos rfl, hds]
    simp [hneg]
  · rw [intToDigits, if_neg hneg, hds, List.cons_append, parseNumSign,
      if_neg (digit_not_special (hdigA d (hds ▸ List.mem_cons_self d ds))).1]
    simp [hneg]

theorem exp_parse (e : Int) (rest : List Char) (hrest : numBoundary rest) :
    parseExp ('e' :: (intToDigits e ++ rest)) = some (e, rest) := by
  obtain ⟨hdigB, hvalB, hneB, _⟩ := natToDigits_spec e.natAbs
  obtain ⟨d, ds, hds⟩ := List.exists_cons_of_ne_nil hneB
  have htd : takeDigits (natToDigits e.natAbs ++ rest) = (natToDigits e.natAbs, rest) :=
    takeDigits_all _ hdigB rest hrest.toHeadNotDigit
  rw [parseExp, if_pos (Or.inl rfl)]
  rw [hds] at htd hvalB
  by_cases hneg : e < 0
  · rw [intToDigits, if_pos hneg, List.cons_append, parseExpSign, if_neg (by decide),
      if_pos rfl, hds]
    simp only [htd]
    simp
    rw [hvalB]
    omega
  · rw [intToDigits, if_neg hneg]
    have hd : isDigitChar d = true := hdigB d (hds ▸ List.mem_cons_self d ds)
    rw [hds, List.cons_append, parseExpSign, if_neg (digit_not_special hd).2.1,
      if_neg (digit_not_special hd).1]
    simp only [List.cons_append] at htd
    simp only [htd]
    simp
    rw [hvalB]
    omega

theorem parseNumber_inv (m e : Int) (rest : List Char) (hcanon : m = 0 → e = 0)
    (hrest : numBoundary rest) :
    parseNumber (serializeJsonNum m e ++ rest) = some ((m, e), rest) := by
  by_cases hm : m = 0
  · obtain rfl := hcanon hm
    subst hm
    rw [serializeJsonNum, if_pos rfl, List.singleton_append, parseNumber]
    have hsign : parseNumSign ('0' :: rest) = (false, '0' :: rest) := by
      rw [parseNumSign, if_neg (by decide)]
    have htd : takeDigits ('0' :: rest) = (['0'], rest) :=
      takeDigits_all ['0'] (by decide) rest hrest.toHeadNotDigit
    simp only [hsign, htd]
    rw [if_neg (by simp)]
    simp only [parseFrac_boundary rest hrest, parseExp_boundary rest hrest]
    simp [digitsToNat]
  · rw [serializeJsonNum, if_neg hm]
    by_cases he : e = 0
    · subst he
      rw [if_pos rfl]
      obtain ⟨d, ds, hsgn, htd, hlz, hval⟩ := mantissa_parse m rest hrest.toHeadNotDigit
      rw [parseNumber]
      simp only [hsgn, List.cons_append] at *
      simp only [hsgn, htd]
      rw [if_neg hlz]
      simp only [parseFrac_boundary rest hrest, parseExp_boundary rest hrest]
      simp [hval]
      split
      · rename_i h
        rw [abs_of_neg h, neg_neg]
      · rename_i h
        rw [abs_of_nonneg (not_lt.mp h)]
    · rw [if_neg he]
      have htail : headNotDigit ('e' :: (intToDigits e ++ rest)) := by
        have : isDigitChar 'e' = false := by decide
        exact this
      obtain ⟨d, ds, hsgn, htd, hlz, hval⟩ := mantissa_parse m _ htail
      rw [parseNumber, List.append_assoc, List.cons_append]
      simp only [List.cons_append] at hsgn htd
      simp only [hsgn, htd]
      rw [if_neg hlz]
      have hfrac : parseFrac ('e' :: (intToDigits e ++ rest)) =
          some ([], 'e' :: (intToDigits e ++ rest)) := by
        rw [parseFrac, if_neg (by decide)]
      simp only [hfrac, exp_parse e rest hrest]
      simp [hval]
      split
      · rename_i h
        rw [abs_of_neg h, neg_neg]
      · rename_i h
        rw [abs_of_nonneg (not_lt.mp h)]

/-! ## Round trip of the JSON codec (C8): the main inversion -/

/-- Object keys are pairwise distinct. -/
def keysNodup : List (String × JsonValue) → Bool
  | [] => true
  | (k, _) :: fs => !(fs.any (fun q => q.1 == k)) && keysNodup fs

mutual

/-- Values in the image of the decoder and of `canon`: a zero number
carries exponent 0, and object keys are distinct at every level. -/
def canonicalValue : JsonValue → Bool
  | .null => true
  | .bool _ => true
  | .num m e => m != 0 || e == 0
  | .str _ => true
  | .arr l => canonicalList l
  | .obj fs => keysNodup fs && canonicalFields fs

def canonicalList : List JsonValue → Bool
  | [] => true
  | v :: vs => canonicalValue v && canonicalList vs

def canonicalFields : List (String × JsonValue) → Bool
  | [] => true
  | (_, v) :: fs => canonicalValue v && canonicalFields fs

end

mutual

/-- Fuel adequate for decoding the encoding of a value. -/
def jsonFuel : JsonValue → Nat
  | .null => 1
  | .bool _ => 1
  | .num _ _ => 1
  | .str _ => 1
  | .arr l => 1 + elemsFuel l
  | .obj fs => 1 + membersFuel fs

def elemsFuel : List JsonValue → Nat
  | [] => 0
  | v :: vs => 1 + jsonFuel v + elemsFuel vs

def membersFuel : List (String × JsonValue) → Nat
  | [] => 0
  | (_, v) :: fs => 1 + jsonFuel v + membersFuel fs

end

theorem dedupKeys_of_nodup (fs : List (String × JsonValue)) (h : keysNodup fs = true) :
    dedupKeys fs = fs := by
  induction fs with
  | nil => rfl
  | cons p fs ih =>
    obtain ⟨k, v⟩ := p
    rw [keysNodup, Bool.and_eq_true, Bool.not_eq_true'] at h
    rw [dedupKeys, if_neg (by simp [h.1]), ih h.2]

/-- What the encoder emits directly after a nested value: a comma, a
closing brace or bracket, or nothing. -/
def tokenBoundary : List Char → Prop
  | [] => True
  | c :: _ => c = ',' ∨ c = '}' ∨ c = ']'

theorem tokenBoundary.toNumBoundary {r : List Char} (h : tokenBoundary r) : numBoundary r := by
  cases r with
  | nil => trivial
  | cons c t =>
    rcases (h : c = ',' ∨ c = '}' ∨ c = ']') with rfl | rfl | rfl <;>
      exact ⟨by decide, by decide, by decide, by decide⟩

/-- Conditions on a character that starts a serialized number. -/
theorem numHead_conditions {c : Char} (h : isDigitChar c = true ∨ c = '-') :
    ¬(c = ' ' ∨ c = '\t' ∨ c = '\n' ∨ c = '\r') ∧
    ¬(c = '{') ∧ ¬(c = '[') ∧ ¬(c = '"') ∧ ¬(c = 't') ∧ ¬(c = 'f') ∧ ¬(c = 'n') ∧
    ¬(c = ']') ∧ ¬(c = '}') := by
  rcases h with h | rfl
  · obtain ⟨h1, h2⟩ := isDigitChar_bounds h
    refine ⟨?_, ?_, ?_, ?_, ?_, ?_, ?_, ?_, ?_⟩ <;>
      (rintro (rfl | rfl | rfl | rfl) <;> simp_all)
  · exact ⟨by decide, by decide, by decide, by decide, by decide, by decide, by decide,
      by decide, by decide⟩

/-- The first character of a serialized number is a digit or a minus. -/
theorem serializeJsonNum_head (m e : Int) :
    ∃ c t, serializeJsonNum m e = c :: t ∧ (isDigitChar c = true ∨ c = '-') := by
  rw [serializeJsonNum]
  by_cases hm : m = 0
  · exact ⟨'0', [], by rw [if_pos hm], Or.inl (by decide)⟩
  · rw [if_neg hm]
    have hhead : ∃ c t, intToDigits m = c :: t ∧ (isDigitChar c = true ∨ c = '-') := by
      rw [intToDigits]
      by_cases hneg : m < 0
      · exact ⟨'-', _, by rw [if_pos hneg], Or.inr rfl⟩
      · obtain ⟨hdig, _, hne, _⟩ := natToDigits_spec m.natAbs
        obtain ⟨d, ds, hds⟩ := List.exists_cons_of_ne_nil hne
        exact ⟨d, ds, by rw [if_neg hneg, hds],
          Or.inl (hdig d (hds ▸ List.mem_cons_self d ds))⟩
    obtain ⟨c, t, hct, hc⟩ := hhead
    by_cases he : e = 0
    · exact ⟨c, t, by rw [if_pos he, hct], hc⟩
    · exact ⟨c, t ++ 'e' :: intToDigits e, by rw [if_neg he, hct, List.cons_append], hc⟩

theorem canonicalValue_num {m e : Int} (h : canonicalValue (.num m e) = true) :
    m = 0 → e = 0 := by
  intro hm
  subst hm
  rw [canonicalValue] at h
  simpa using h

theorem jsonFuel_pos (v : JsonValue) : 1 ≤ jsonFuel v := by
  cases v <;> rw [jsonFuel] <;> omega

/-- A serialized value begins with a visible character that is not a
closing bracket or brace. -/
theorem serializeValue_head (v : JsonValue) :
    ∃ c t, serializeValue v = c :: t ∧
      ¬(c = ' ' ∨ c = '\t' ∨ c = '\n' ∨ c = '\r') ∧ ¬(c = ']') ∧ ¬(c = '}') := by
  cases v with
  | null => exact ⟨'n', ['u', 'l', 'l'], rfl, by decide, by decide, by decide⟩
  | bool b =>
    cases b with
    | true => exact ⟨'t', ['r', 'u', 'e'], rfl, by decide, by decide, by decide⟩
    | false => exact ⟨'f', ['a', 'l', 's', 'e'], rfl, by decide, by decide, by decide⟩
  | num m e =>
    obtain ⟨c, t, hct, hc⟩ := serializeJsonNum_head m e
    have h := numHead_conditions hc
    exact ⟨c, t, hct, h.1, h.2.2.2.2.2.2.2.1, h.2.2.2.2.2.2.2.2⟩
  | str s => exact ⟨'"', _, rfl, by decide, by decide, by decide⟩
  | arr l => exact ⟨'[', _, rfl, by decide, by decide, by decide⟩
  | obj fs => exact ⟨'{', _, rfl, by decide, by decide, by decide⟩

/-- A serialized nonempty element list begins like its first value. -/
theorem serializeElems_head (x : JsonValue) (xs : List JsonValue) (Y : List Char) :
    ∃ c u, serializeElems (x :: xs) ++ Y = c :: u ∧
      ¬(c = ' ' ∨ c = '\t' ∨ c = '\n' ∨ c = '\r') ∧ ¬(c = ']') ∧ ¬(c = '}') := by
  obtain ⟨c, t, hct, h1, h2, h3⟩ := serializeValue_head x
  cases xs with
  | nil =>
    refine ⟨c, t ++ Y, ?_, h1, h2, h3⟩
    rw [show serializeElems [x] = serializeValue x from rfl, hct, List.cons_append]
  | cons y ys =>
    refine ⟨c, t ++ ',' :: serializeElems (y :: ys) ++ Y, ?_, h1, h2, h3⟩
    rw [show serializeElems (x :: y :: ys) = serializeValue x ++ ',' :: serializeElems (y :: ys)
      from rfl, hct]
    simp

theorem skipWs_cons (c : Char) (cs : List Char)
    (h : ¬(c = ' ' ∨ c = '\t' ∨ c = '\n' ∨ c = '\r')) :
    skipWs (c :: cs) = c :: cs := by
  rw [skipWs, if_neg h]

theorem stringMk_data (s : String) : String.mk s.data = s := rfl

/-- A serialized nonempty field list begins with the opening quote of its
first key. -/
theorem serializeFields_head (k : String) (v : JsonValue)
    (fs : List (String × JsonValue)) (Y : List Char) :
    ∃ u, serializeFields ((k, v) :: fs) ++ Y = '"' :: u := by
  cases fs with
  | nil =>
    refine ⟨k.toList.foldr (fun c acc => escapeJsonChar c ++ acc) ['"'] ++
      ':' :: serializeValue v ++ Y, ?_⟩
    show (serializeJsonString k ++ ':' :: serializeValue v) ++ Y = _
    rw [serializeJsonString]
    simp
  | cons p fs2 =>
    refine ⟨k.toList.foldr (fun c acc => escapeJsonChar c ++ acc) ['"'] ++
      ':' :: serializeValue v ++ ',' :: serializeFields (p :: fs2) ++ Y, ?_⟩
    show (serializeJsonString k ++ ':' :: serializeValue v ++
      ',' :: serializeFields (p :: fs2)) ++ Y = _
    rw [serializeJsonString]
    simp

mutual

/-- Decoding inverts encoding: a decoder-canonical value followed by a
value boundary is decoded back exactly, given adequate fuel. -/
theorem parseValueF_inv (v : JsonValue) (rest : List Char) (fuel : Nat)
    (hv : canonicalValue v = true) (hfuel : jsonFuel v ≤ fuel) (hrest : tokenBoundary rest) :
    parseValueF fuel (serializeValue v ++ rest) = some (v, rest) := by
  obtain ⟨f, rfl⟩ : ∃ f, fuel = f + 1 := ⟨fuel - 1, by have := jsonFuel_pos v; omega⟩
  cases v with
  | null =>
    rw [show serializeValue .null ++ rest = 'n' :: 'u' :: 'l' :: 'l' :: rest from rfl,
      parseValueF.eq_def]
    simp [skipWs]
  | bool b =>
    cases b with
    | true =>
      rw [show serializeValue (.bool true) ++ rest = 't' :: 'r' :: 'u' :: 'e' :: rest from rfl,
        parseValueF.eq_def]
      simp [skipWs]
    | false =>
      rw [show serializeValue (.bool false) ++ rest = 'f' :: 'a' :: 'l' :: 's' :: 'e' :: rest
        from rfl, parseValueF.eq_def]
      simp [skipWs]
  | num m e =>
    obtain ⟨c, t, hct, hc⟩ := serializeJsonNum_head m e
    have hcond := numHead_conditions hc
    rw [show serializeValue (.num m e) = serializeJsonNum m e from rfl, hct, List.cons_append,
      parseValueF.eq_def]
    simp only [skipWs_cons_of_not_ws _ hcond.1, if_neg hcond.2.1, if_neg hcond.2.2.1,
      if_neg hcond.2.2.2.1, if_neg hcond.2.2.2.2.1, if_neg hcond.2.2.2.2.2.1,
      if_neg hcond.2.2.2.2.2.2.1]
    rw [← List.cons_append, ← hct, parseNumber_inv m e rest (canonicalValue_num hv)
      hrest.toNumBoundary]
    rfl
  | str s =>
    have hser : serializeValue (.str s) ++ rest =
        '"' :: s.toList.foldr (fun c acc => escapeJsonChar c ++ acc) ('"' :: rest) := by
      show ('"' :: s.toList.foldr (fun c acc => escapeJsonChar c ++ acc) ['"']) ++ rest = _
      rw [List.cons_append, foldr_escape_append]
      rfl
    rw [hser, parseValueF.eq_def]
    simp [skipWs]
    exact ⟨s.toList, parseJsonStringAt_inv s.toList rest, rfl⟩
  | arr l =>
    cases l with
    | nil =>
      rw [show serializeValue (.arr []) ++ rest = '[' :: ']' :: rest from rfl,
        parseValueF.eq_def]
      simp [skipWs]
    | cons x xs =>
      have hcl : canonicalList (x :: xs) = true := by rw [canonicalValue] at hv; exact hv
      have hrec := parseElemsF_inv (x :: xs) (by simp) rest f hcl
        (by rw [jsonFuel] at hfuel; omega) hrest
      have hser : serializeValue (.arr (x :: xs)) ++ rest =
          '[' :: (serializeElems (x :: xs) ++ ']' :: rest) := by
        show ('[' :: (serializeElems (x :: xs) ++ [']'])) ++ rest = _
        simp
      obtain ⟨c, u, hcu, hws, hbr, hbc⟩ := serializeElems_head x xs (']' :: rest)
      have hser2 : serializeValue (.arr (x :: xs)) ++ rest = '[' :: c :: u := by
        rw [hser, hcu]
      rw [hser2, parseValueF.eq_def]
      simp only [skipWs_cons '[' (c :: u) (by decide), skipWs_cons c u hws,
        show ('[' = '{') = False from by decide, show ('[' = '[') = True from by decide,
        if_false, if_true]
      split
      · rename_i cs2 heq
        injection heq with h1 h2
        exact absurd h1 hbr
      · rw [← hcu, hrec]
        rfl
  | obj fs =>
    cases fs with
    | nil =>
      rw [show serializeValue (.obj []) ++ rest = '{' :: '}' :: rest from rfl,
        parseValueF.eq_def]
      simp [skipWs]
    | cons p fs2 =>
      obtain ⟨k, w⟩ := p
      have h2 : keysNodup ((k, w) :: fs2) = true ∧ canonicalFields ((k, w) :: fs2) = true := by
        rw [canonicalValue, Bool.and_eq_true] at hv
        exact hv
      have hrec := parseMembersF_inv ((k, w) :: fs2) (by simp) rest f h2.2
        (by rw [jsonFuel] at hfuel; omega) hrest
      obtain ⟨u, hu⟩ := serializeFields_head k w fs2 ('}' :: rest)
      have hser2 : serializeValue (.obj ((k, w) :: fs2)) ++ rest = '{' :: '"' :: u := by
        show ('{' :: (serializeFields ((k, w) :: fs2) ++ ['}'])) ++ rest = _
        rw [List.cons_append, List.append_assoc, List.singleton_append, hu]
      rw [hser2, parseValueF.eq_def]
      simp only [skipWs_cons '{' ('"' :: u) (by decide), skipWs_cons '"' u (by decide),
        show ('{' = '{') = True from by decide, if_true]
      split
      · rename_i cs2 heq
        injection heq with h1 h2
        exact absurd h1 (by decide)
      · rw [← hu, hrec]
        simp [dedupKeys_of_nodup _ h2.1]

/-- Decoding the elements of a serialized nonempty array, up to and
including the closing bracket. -/
theorem parseElemsF_inv (l : List JsonValue) (hl : l ≠ []) (rest : List Char) (fuel : Nat)
    (hv : canonicalList l = true) (hfuel : elemsFuel l ≤ fuel) (hrest : tokenBoundary rest) :
    parseElemsF fuel (serializeElems l ++ ']' :: rest) = some (l, rest) := by
  cases l with
  | nil => exact absurd rfl hl
  | cons x xs =>
    obtain ⟨f, rfl⟩ : ∃ f, fuel = f + 1 := ⟨fuel - 1, by rw [elemsFuel] at hfuel; omega⟩
    rw [canonicalList, Bool.and_eq_true] at hv
    cases xs with
    | nil =>
      have hvrec := parseValueF_inv x (']' :: rest) f hv.1
        (by rw [elemsFuel, elemsFuel] at hfuel; omega)
        (show ']' = ',' ∨ ']' = '}' ∨ ']' = ']' from Or.inr (Or.inr rfl))
      rw [show serializeElems [x] ++ ']' :: rest = serializeValue x ++ ']' :: rest from rfl,
        parseElemsF.eq_def]
      simp [skipWs, hvrec]
    | cons y ys =>
      have hvrec := parseValueF_inv x (',' :: (serializeElems (y :: ys) ++ ']' :: rest)) f hv.1
        (by rw [elemsFuel] at hfuel; omega)
        (show ',' = ',' ∨ ',' = '}' ∨ ',' = ']' from Or.inl rfl)
      have herec := parseElemsF_inv (y :: ys) (by simp) rest f hv.2
        (by rw [elemsFuel] at hfuel; omega) hrest
      have hser : serializeElems (x :: y :: ys) ++ ']' :: rest =
          serializeValue x ++ ',' :: (serializeElems (y :: ys) ++ ']' :: rest) := by
        show (serializeValue x ++ ',' :: serializeElems (y :: ys)) ++ ']' :: rest = _
        simp
      rw [hser, parseElemsF.eq_def]
      simp [skipWs, hvrec, herec]

/-- Decoding the members of a serialized nonempty object, up to and
including the closing brace. -/
theorem parseMembersF_inv (fs : List (String × JsonValue)) (hfs : fs ≠ [])
    (rest : List Char) (fuel : Nat)
    (hv : canonicalFields fs = true) (hfuel : membersFuel fs ≤ fuel)
    (hrest : tokenBoundary rest) :
    parseMembersF fuel (serializeFields fs ++ '}' :: rest) = some (fs, rest) := by
  cases fs with
  | nil => exact absurd rfl hfs
  | cons p fs2 =>
    obtain ⟨k, v⟩ := p
    obtain ⟨f, rfl⟩ : ∃ f, fuel = f + 1 := ⟨fuel - 1, by rw [membersFuel] at hfuel; omega⟩
    rw [canonicalFields, Bool.and_eq_true] at hv
    cases fs2 with
    | nil =>
      have hvrec := parseValueF_inv v ('}' :: rest) f hv.1
        (by rw [membersFuel, membersFuel] at hfuel; omega)
        (show '}' = ',' ∨ '}' = '}' ∨ '}' = ']' from Or.inr (Or.inl rfl))
      have hser : serializeFields [(k, v)] ++ '}' :: rest =
          '"' :: (k.toList.foldr (fun c acc => escapeJsonChar c ++ acc)
            ('"' :: ':' :: (serializeValue v ++ '}' :: rest))) := by
        show (serializeJsonString k ++ ':' :: serializeValue v) ++ '}' :: rest = _
        rw [serializeJsonString]
        simp [foldr_escape_append]
      rw [hser, parseMembersF.eq_def]
      simp [skipWs, parseJsonStringAt_inv, hvrec, stringMk_data]
    | cons q fs3 =>
      have hvrec := parseValueF_inv v
        (',' :: (serializeFields (q :: fs3) ++ '}' :: rest)) f hv.1
        (by rw [membersFuel] at hfuel; omega)
        (show ',' = ',' ∨ ',' = '}' ∨ ',' = ']' from Or.inl rfl)
      have hmrec := parseMembersF_inv (q :: fs3) (by simp) rest f hv.2
        (by rw [membersFuel] at hfuel; omega) hrest
      have hser : serializeFields ((k, v) :: q :: fs3) ++ '}' :: rest =
          '"' :: (k.toList.foldr (fun c acc => escapeJsonChar c ++ acc)
            ('"' :: ':' :: (serializeValue v ++
              ',' :: (serializeFields (q :: fs3) ++ '}' :: rest)))) := by
        show (serializeJsonString k ++ ':' :: serializeValue v ++
          ',' :: serializeFields (q :: fs3)) ++ '}' :: rest = _
        rw [serializeJsonString]
        simp [foldr_escape_append]
      rw [hser, parseMembersF.eq_def]
      simp [skipWs, parseJsonStringAt_inv, hvrec, hmrec, stringMk_data]

end

/-! ## Round trip of the JSON codec (C8): well-formed documents, key
sorting, and semantic equality -/

mutual

/-- A well-formed decoded document (what a Go map-based value satisfies by
construction): object keys are distinct at every level. -/
def wfValue : JsonValue → Bool
  | .arr l => wfList l
  | .obj fs => keysNodup fs && wfFields fs
  | _ => true

def wfList : List JsonValue → Bool
  | [] => true
  | v :: vs => wfValue v && wfList vs

def wfFields : List (String × JsonValue) → Bool
  | [] => true
  | (_, v) :: fs => wfValue v && wfFields fs

end

theorem insertField_perm (p : String × JsonValue) (l : List (String × JsonValue)) :
    List.Perm (insertField p l) (p :: l) := by
  induction l with
  | nil => exact List.Perm.refl _
  | cons q qs ih =>
    rw [insertField]
    split
    · exact List.Perm.refl _
    · exact (List.Perm.cons q ih).trans (List.Perm.swap p q qs)

theorem sortFields_perm (l : List (String × JsonValue)) :
    List.Perm (sortFields l) l := by
  induction l with
  | nil => exact List.Perm.refl _
  | cons p ps ih => exact (insertField_perm p (sortFields ps)).trans (List.Perm.cons p ih)

theorem canonFields_map_fst (fs : List (String × JsonValue)) :
    (canonFields fs).map Prod.fst = fs.map Prod.fst := by
  induction fs with
  | nil => rfl
  | cons p ps ih =>
    obtain ⟨k, v⟩ := p
    rw [canonFields, List.map_cons, List.map_cons, ih]

theorem mem_canonFields {k : String} {cv : JsonValue} {fs : List (String × JsonValue)}
    (h : (k, cv) ∈ canonFields fs) : ∃ v0, (k, v0) ∈ fs ∧ cv = canon v0 := by
  induction fs with
  | nil => exact absurd h (by rw [canonFields]; simp)
  | cons p ps ih =>
    obtain ⟨k2, v2⟩ := p
    rw [canonFields] at h
    rcases List.mem_cons.mp h with h | h
    · obtain ⟨h1, h2⟩ := Prod.mk.injEq .. ▸ h
      exact ⟨v2, List.mem_cons.mpr (Or.inl (by rw [h1])), h2⟩
    · obtain ⟨v0, hv0, hc⟩ := ih h
      exact ⟨v0, List.mem_cons_of_mem _ hv0, hc⟩

theorem keysNodup_iff (fs : List (String × JsonValue)) :
    keysNodup fs = true ↔ (fs.map Prod.fst).Nodup := by
  induction fs with
  | nil => simp [keysNodup]
  | cons p ps ih =>
    obtain ⟨k, v⟩ := p
    rw [keysNodup, Bool.and_eq_true, Bool.not_eq_true', List.map_cons, List.nodup_cons, ih]
    constructor
    · rintro ⟨h1, h2⟩
      refine ⟨fun hk => ?_, h2⟩
      obtain ⟨q, hq, hq1⟩ := List.mem_map.mp hk
      have : ps.any (fun q => q.1 == k) = true := List.any_eq_true.mpr ⟨q, hq, by simp [hq1]⟩
      simp [this] at h1
    · rintro ⟨h1, h2⟩
      refine ⟨?_, h2⟩
      rw [Bool.eq_false_iff]
      intro hany
      obtain ⟨q, hq, hq1⟩ := List.any_eq_true.mp hany
      exact h1 (List.mem_map.mpr ⟨q, hq, by simpa using hq1⟩)

theorem keysNodup_sorted_canon (fs : List (String × JsonValue))
    (h : keysNodup fs = true) :
    keysNodup (sortFields (canonFields fs)) = true := by
  rw [keysNodup_iff] at h ⊢
  have hperm : List.Perm ((sortFields (canonFields fs)).map Prod.fst)
      ((canonFields fs).map Prod.fst) := (sortFields_perm (canonFields fs)).map Prod.fst
  rw [hperm.nodup_iff, canonFields_map_fst]
  exact h

/-- Pointwise lookup in a field list (first match). -/
def lookupField (k : String) : List (String × JsonValue) → Option JsonValue
  | [] => none
  | (k2, v) :: fs => if k2 == k then some v else lookupField k fs

theorem lookupField_of_mem_nodup {k : String} {v0 : JsonValue}
    {fs : List (String × JsonValue)} (hnd : keysNodup fs = true) (hm : (k, v0) ∈ fs) :
    lookupField k fs = some v0 := by
  induction fs with
  | nil => exact absurd hm (by simp)
  | cons p ps ih =>
    obtain ⟨k2, v2⟩ := p
    rw [keysNodup, Bool.and_eq_true, Bool.not_eq_true'] at hnd
    rcases List.mem_cons.mp hm with h | h
    · obtain ⟨h1, h2⟩ := Prod.mk.injEq .. ▸ h
      rw [lookupField, if_pos (by simp [h1]), h2]
    · rw [lookupField]
      have hk2 : ¬(k2 == k) = true := by
        intro hk2
        have : ps.any (fun q => q.1 == k2) = true :=
          List.any_eq_true.mpr ⟨(k, v0), h, by simpa using (eq_of_beq hk2).symm⟩
        simp [this] at hnd
      rw [if_neg hk2]
      exact ih hnd.2 h

/-- Exact decimal equality of two scaled-decimal numbers. -/
def decimalEqB (m1 e1 m2 e2 : Int) : Bool :=
  m1 * 10 ^ (e1 - min e1 e2).toNat == m2 * 10 ^ (e2 - min e1 e2).toNat

mutual

/-- Semantic equality of decoded JSON documents: equal scalars up to
decimal value, arrays pointwise, objects by key set and per-key values,
regardless of field order. -/
def semEqValue : JsonValue → JsonValue → Bool
  | .null, .null => true
  | .bool a, .bool b => a == b
  | .num m1 e1, .num m2 e2 => decimalEqB m1 e1 m2 e2
  | .str a, .str b => a == b
  | .arr l1, .arr l2 => semEqList l1 l2
  | .obj f1, .obj f2 =>
    ((f1.map Prod.fst).all fun k => (f2.map Prod.fst).contains k) &&
    ((f2.map Prod.fst).all fun k => (f1.map Prod.fst).contains k) &&
    semEqFields f1 f2
  | _, _ => false

def semEqList : List JsonValue → List JsonValue → Bool
  | [], [] => true
  | v :: vs, w :: ws => semEqValue v w && semEqList vs ws
  | _, _ => false

def semEqFields : List (String × JsonValue) → List (String × JsonValue) → Bool
  | [], _ => true
  | (k, v) :: fs, f2 =>
    (match lookupField k f2 with
     | some w => semEqValue v w
     | none => false) && semEqFields fs f2

end

theorem serializeJsonNum_length_pos (m e : Int) : 1 ≤ (serializeJsonNum m e).length := by
  obtain ⟨c, t, h, _⟩ := serializeJsonNum_head m e
  rw [h]
  simp

mutual

theorem jsonFuel_le_length : ∀ v : JsonValue, jsonFuel v ≤ (serializeValue v).length
  | .null => by rw [jsonFuel, serializeValue]; decide
  | .bool b => by rw [jsonFuel, serializeValue]; cases b <;> decide
  | .num m e => by rw [jsonFuel, serializeValue]; exact serializeJsonNum_length_pos m e
  | .str s => by rw [jsonFuel, serializeValue, serializeJsonString]; simp
  | .arr l => by
    rw [jsonFuel, serializeValue]
    have h := elemsFuel_le_length l
    simp only [List.length_cons, List.length_append]
    omega
  | .obj fs => by
    rw [jsonFuel, serializeValue]
    have h := membersFuel_le_length fs
    simp only [List.length_cons, List.length_append]
    omega

theorem elemsFuel_le_length : ∀ l : List JsonValue, elemsFuel l ≤ (serializeElems l).length + 1
  | [] => by rw [elemsFuel]; omega
  | [v] => by
    rw [elemsFuel, elemsFuel, serializeElems]
    have h := jsonFuel_le_length v
    omega
  | v :: w :: vs => by
    rw [elemsFuel, serializeElems]
    have h1 := jsonFuel_le_length v
    have h2 := elemsFuel_le_length (w :: vs)
    simp only [List.length_append, List.length_cons]
    omega

theorem membersFuel_le_length :
    ∀ fs : List (String × JsonValue), membersFuel fs ≤ (serializeFields fs).length + 1
  | [] => by rw [membersFuel]; omega
  | [(k, v)] => by
    rw [membersFuel, membersFuel, serializeFields]
    have h := jsonFuel_le_length v
    simp only [List.length_append, List.length_cons]
    omega
  | (k, v) :: f :: fs => by
    rw [membersFuel, serializeFields]
    have h1 := jsonFuel_le_length v
    have h2 := membersFuel_le_length (f :: fs)
    simp only [List.length_append, List.length_cons]
    omega

end

theorem jsonFuel_le_elemsFuel {x : JsonValue} {l : List JsonValue} (h : x ∈ l) :
    jsonFuel x ≤ elemsFuel l := by
  induction l with
  | nil => exact absurd h (List.not_mem_nil x)
  | cons v vs ih =>
    rw [elemsFuel]
    rcases List.mem_cons.mp h with rfl | h
    · omega
    · have := ih h; omega

theorem jsonFuel_le_membersFuel {p : String × JsonValue} {fs : List (String × JsonValue)}
    (h : p ∈ fs) : jsonFuel p.2 ≤ membersFuel fs := by
  induction fs with
  | nil => exact absurd h (List.not_mem_nil p)
  | cons q qs ih =>
    obtain ⟨k, v⟩ := q
    rw [membersFuel]
    rcases List.mem_cons.mp h with rfl | h
    · show jsonFuel v ≤ 1 + jsonFuel v + membersFuel qs
      omega
    · have := ih h; omega

/-- Member-wise induction over the nested inductive `JsonValue`, via the
`jsonFuel` measure. -/
theorem JsonValue.inductionOn {P : JsonValue → Prop} (v : JsonValue)
    (hnull : P .null) (hbool : ∀ b, P (.bool b)) (hnum : ∀ m e, P (.num m e))
    (hstr : ∀ s, P (.str s))
    (harr : ∀ l, (∀ x ∈ l, P x) → P (.arr l))
    (hobj : ∀ fs, (∀ p ∈ fs, P p.2) → P (.obj fs)) : P v := by
  have key : ∀ n, ∀ w : JsonValue, jsonFuel w ≤ n → P w := by
    intro n
    induction n using Nat.strong_induction_on with
    | _ n ih =>
      intro w hle
      cases w with
      | null => exact hnull
      | bool b => exact hbool b
      | num m e => exact hnum m e
      | str s => exact hstr s
      | arr l =>
        rw [jsonFuel] at hle
        exact harr l fun x hx =>
          ih (elemsFuel l) (by omega) x (jsonFuel_le_elemsFuel hx)
      | obj fs =>
        rw [jsonFuel] at hle
        exact hobj fs fun p hp =>
          ih (membersFuel fs) (by omega) p.2 (jsonFuel_le_membersFuel hp)
  exact key (jsonFuel v) v le_rfl

theorem wfList_forall {l : List JsonValue} (h : wfList l = true) :
    ∀ x ∈ l, wfValue x = true := by
  induction l with
  | nil => intro x hx; exact absurd hx (List.not_mem_nil x)
  | cons v vs ih =>
    rw [wfList, Bool.and_eq_true] at h
    intro x hx
    rcases List.mem_cons.mp hx with rfl | hx
    · exact h.1
    · exact ih h.2 x hx

theorem wfFields_forall {fs : List (String × JsonValue)} (h : wfFields fs = true) :
    ∀ p ∈ fs, wfValue p.2 = true := by
  induction fs with
  | nil => intro p hp; exact absurd hp (List.not_mem_nil p)
  | cons q qs ih =>
    obtain ⟨k, v⟩ := q
    rw [wfFields, Bool.and_eq_true] at h
    intro p hp
    rcases List.mem_cons.mp hp with rfl | hp
    · exact h.1
    · exact ih h.2 p hp

theorem mem_canonList {x : JsonValue} {l : List JsonValue} (h : x ∈ canonList l) :
    ∃ y ∈ l, x = canon y := by
  induction l with
  | nil => exact absurd h (by rw [canonList]; simp)
  | cons v vs ih =>
    rw [canonList] at h
    rcases List.mem_cons.mp h with rfl | h
    · exact ⟨v, List.mem_cons_self v vs, rfl⟩
    · obtain ⟨y, hy, hc⟩ := ih h
      exact ⟨y, List.mem_cons_of_mem v hy, hc⟩

theorem canonicalList_of_forall (l : List JsonValue)
    (h : ∀ x ∈ l, canonicalValue x = true) : canonicalList l = true := by
  induction l with
  | nil => rfl
  | cons v vs ih =>
    rw [canonicalList, Bool.and_eq_true]
    exact ⟨h v (List.mem_cons_self v vs), ih fun x hx => h x (List.mem_cons_of_mem v hx)⟩

theorem canonicalFields_of_forall (fs : List (String × JsonValue))
    (h : ∀ p ∈ fs, canonicalValue p.2 = true) : canonicalFields fs = true := by
  induction fs with
  | nil => rfl
  | cons q qs ih =>
    obtain ⟨k, v⟩ := q
    rw [canonicalFields, Bool.and_eq_true]
    refine ⟨h (k, v) (List.mem_cons_self (k, v) qs), ?_⟩
    exact ih fun p hp => h p (List.mem_cons_of_mem (k, v) hp)

/-- `canon` of a well-formed value lands in the canonical (decoder-image)
set: zero numbers normalized, keys distinct at every level. -/
theorem canon_canonical (v : JsonValue) (hwf : wfValue v = true) :
    canonicalValue (canon v) = true := by
  induction v using JsonValue.inductionOn with
  | hnull => rfl
  | hbool b => rfl
  | hnum m e =>
    rw [canon]
    split
    · decide
    · rename_i hm
      rw [canonicalValue]
      simp [hm]
  | hstr s => rfl
  | harr l ih =>
    rw [wfValue] at hwf
    rw [canon, canonicalValue]
    refine canonicalList_of_forall _ fun x hx => ?_
    obtain ⟨y, hy, rfl⟩ := mem_canonList hx
    exact ih y hy (wfList_forall hwf y hy)
  | hobj fs ih =>
    rw [wfValue, Bool.and_eq_true] at hwf
    obtain ⟨hnd, hwff⟩ := hwf
    rw [canon, canonicalValue, Bool.and_eq_true]
    refine ⟨keysNodup_sorted_canon fs hnd, ?_⟩
    refine canonicalFields_of_forall _ ?_
    rintro ⟨k, cv⟩ hp
    have hp2 : (k, cv) ∈ canonFields fs :=
      (sortFields_perm (canonFields fs)).mem_iff.mp hp
    obtain ⟨v0, hv0, rfl⟩ := mem_canonFields hp2
    exact ih (k, v0) hv0 (wfFields_forall hwff (k, v0) hv0)

theorem contains_of_mem {k : String} {l : List String} (h : k ∈ l) :
    l.contains k = true := by
  simpa using h

theorem semEqList_canonList (l : List JsonValue)
    (h : ∀ x ∈ l, semEqValue (canon x) x = true) : semEqList (canonList l) l = true := by
  induction l with
  | nil => rfl
  | cons v vs ih =>
    rw [canonList, semEqList, Bool.and_eq_true]
    exact ⟨h v (List.mem_cons_self v vs), ih fun x hx => h x (List.mem_cons_of_mem v hx)⟩

theorem semEqFields_of_forall (g f2 : List (String × JsonValue))
    (h : ∀ p ∈ g, ∃ w, lookupField p.1 f2 = some w ∧ semEqValue p.2 w = true) :
    semEqFields g f2 = true := by
  induction g with
  | nil => rfl
  | cons p ps ih =>
    obtain ⟨k, v⟩ := p
    obtain ⟨w, hw, hsw⟩ := h (k, v) (List.mem_cons_self (k, v) ps)
    rw [semEqFields, hw]
    simp only [hsw, Bool.true_and]
    exact ih fun q hq => h q (List.mem_cons_of_mem (k, v) hq)

/-- The canonical image is semantically equal to the original: a decoded
then re-encoded then re-decoded document denotes the same JSON data. -/
theorem canon_semEq (v : JsonValue) (hwf : wfValue v = true) :
    semEqValue (canon v) v = true := by
  induction v using JsonValue.inductionOn with
  | hnull => rfl
  | hbool b => simp [canon, semEqValue]
  | hnum m e =>
    rw [canon]
    split
    · rename_i hm
      subst hm
      simp [semEqValue, decimalEqB]
    · simp [semEqValue, decimalEqB]
  | hstr s => simp [canon, semEqValue]
  | harr l ih =>
    rw [wfValue] at hwf
    rw [canon, semEqValue]
    exact semEqList_canonList l fun x hx => ih x hx (wfList_forall hwf x hx)
  | hobj fs ih =>
    rw [wfValue, Bool.and_eq_true] at hwf
    obtain ⟨hnd, hwff⟩ := hwf
    rw [canon, semEqValue, Bool.and_eq_true, Bool.and_eq_true]
    refine ⟨⟨?_, ?_⟩, ?_⟩
    · rw [List.all_eq_true]
      intro k hk
      apply contains_of_mem
      have hk2 : k ∈ (canonFields fs).map Prod.fst :=
        ((sortFields_perm (canonFields fs)).map Prod.fst).mem_iff.mp hk
      rwa [canonFields_map_fst] at hk2
    · rw [List.all_eq_true]
      intro k hk
      apply contains_of_mem
      rw [← canonFields_map_fst] at hk
      exact ((sortFields_perm (canonFields fs)).map Prod.fst).mem_iff.mpr hk
    · refine semEqFields_of_forall _ _ ?_
      rintro ⟨k, cv⟩ hp
      have hp2 : (k, cv) ∈ canonFields fs :=
        (sortFields_perm (canonFields fs)).mem_iff.mp hp
      obtain ⟨v0, hv0, rfl⟩ := mem_canonFields hp2
      exact ⟨v0, lookupField_of_mem_nodup hnd hv0,
        ih (k, v0) hv0 (wfFields_forall hwff (k, v0) hv0)⟩

/-- Decoding the encoding of a well-formed object yields exactly its
canonical form: fields sorted by key, zero numbers normalized, recursively. -/
theorem ExpandJsonFromString_FlattenJsonToString (fs : List (String × JsonValue))
    (hwf : wfValue (.obj fs) = true) :
    ExpandJsonFromString (FlattenJsonToString fs) =
      .ok (sortFields (canonFields fs)) := by
  have hcanon : canonicalValue (canon (.obj fs)) = true := canon_canonical _ hwf
  have hfuel : jsonFuel (canon (.obj fs)) ≤
      2 * (serializeValue (canon (.obj fs))).length + 2 := by
    have h := jsonFuel_le_length (canon (.obj fs))
    omega
  have hparse := parseValueF_inv (canon (.obj fs)) []
    (2 * (serializeValue (canon (.obj fs))).length + 2) hcanon hfuel trivial
  rw [List.append_nil] at hparse
  rw [FlattenJsonToString, ExpandJsonFromString]
  have htl : (String.mk (serializeValue (canon (.obj fs)))).toList =
      serializeValue (canon (.obj fs)) := rfl
  rw [htl, hparse]
  simp [canon, skipWs]

/-- C8: for every valid (well-formed: distinct keys at every level) JSON
object document, parsing its serialized form — `ExpandJsonFromString ∘
FlattenJsonToString`, the expand/flatten pair the Read and Create/Update
operations use for the three JSON fields — succeeds and yields a document
semantically equal to the original: same key set and same values at every
key, regardless of field order. -/
theorem json_roundtrip_semantically_equal (fs : List (String × JsonValue))
    (hwf : wfValue (.obj fs) = true) :
    ∃ fs2, ExpandJsonFromString (FlattenJsonToString fs) = .ok fs2 ∧
      semEqValue (.obj fs2) (.obj fs) = true := by
  refine ⟨sortFields (canonFields fs), ExpandJsonFromString_FlattenJsonToString fs hwf, ?_⟩
  have h := canon_semEq (.obj fs) hwf
  rwa [canon] at h

/-- Witness for C8: a concrete two-level document with unsorted keys and a
zero number in a non-normal form exercises the round trip. -/
theorem json_roundtrip_semantically_equal_witness :
    wfValue (.obj [("b", .num 0 2), ("a", .obj [("y", .str "v"), ("x", .arr [.bool true])])])
      = true ∧
    ∃ fs2, ExpandJsonFromString (FlattenJsonToString
        [("b", .num 0 2), ("a", .obj [("y", .str "v"), ("x", .arr [.bool true])])]) =
        .ok fs2 ∧
      semEqValue (.obj fs2)
        (.obj [("b", .num 0 2), ("a", .obj [("y", .str "v"), ("x", .arr [.bool true])])])
        = true :=
  ⟨by decide, json_roundtrip_semantically_equal
    [("b", .num 0 2), ("a", .obj [("y", .str "v"), ("x", .arr [.bool true])])] (by decide)⟩

end ManagementGroupPolicyDefinition
